import Mathlib

/-!
Shallow embedding of `crates/accelerate/src/synthesis/linear_phase/cnot_phase_synth.rs`
(`synth_cnot_phase_aam` and its helper `InstructionIterator`), the Gray-Synth
CNOT+phase circuit synthesizer, together with proofs about the embedded code.

Representation choices:
* GF(2) matrix entries (`u8` restricted to 0/1 by the input contract) are `Bool`.
* A work matrix (`Array2<u8>` with `n` rows whose columns are phase terms) is
  represented by its list of columns, each a length-`n` `List Bool`; this makes
  the column operations of the source (`column`, `remove_index(Axis(1), _)`,
  the bipartition loop over `columns()`) direct, while a row is recovered by
  mapping over the columns.  The parity `state` matrix, which the source only
  accesses by rows, is represented as its list of rows.
* The numeric payload of a general phase gate
  (`Param::Float(angles_in_pi.parse::<f64>()? % PI)`) is kept as the source
  string: floating-point arithmetic is outside the embedding, but the
  success/failure of `str::parse::<f64>` (which is all the control flow
  depends on) is modelled exactly by `isF64String`.
* Rust panics (out-of-bounds `Vec::remove`/`ndarray` indexing, `unwrap` on
  `None`) are modelled as explicit error values: `Err.guardFail` for the
  unwrap/indexing sites of the partition-engine loop (queue pops, the pivot
  argmax, `column(0)`), `Err.idxFail` for out-of-bounds label/state accesses.
* Every loop takes fuel and yields `none` when it runs out, keeping all
  definitions structurally recursive (so that concrete runs compute by `rfl`);
  termination — which for the work-queue loop and the row-elimination fixpoint
  is itself one of the claims — is then the statement that some finite fuel
  returns `some`.
-/

deriving instance DecidableEq for Except

/-- Result of parsing attempts and panics surfaced by the embedded code. -/
inductive Err where
  /-- `str::parse::<f64>` failed on this angle label (a `PyErr` in the source). -/
  | parseFail (s : String)
  /-- One of the unwrap/indexing operations of the partition-engine loop
      (queue pop, pivot argmax, `column(0)`) would panic. -/
  | guardFail
  /-- An out-of-bounds label or state-row access (`Vec::remove`,
      `state[(i, k)]`) would panic. -/
  | idxFail
deriving DecidableEq, Repr

/-- The standard gates emitted by the synthesizer.  `Phase` keeps the source
string of the angle; the source stores `parse::<f64>()? % PI` of it. -/
inductive Gate where
  | T | Tdg | SGate | Sdg | Z
  | Phase (s : String)
  | CX
deriving DecidableEq, Repr

/-- One emitted instruction: the gate and its qubit operands
(`[control, target]` for `CX`, `[qubit]` otherwise). -/
abbrev Instruction := Gate × List ℕ

/-- A work matrix: the list of phase-term columns, each of length `n`. -/
abbrev Mat := List (List Bool)

/-- A work item of the partition engine: `(submatrix, eligible rows, excluded row)`;
the excluded-row sentinel "none" is the value `num_qubits`. -/
abbrev WItem := Mat × List ℕ × ℕ

/-- Row `j` of a column-list matrix. -/
def matRow (m : Mat) (j : ℕ) : List Bool :=
  m.map (fun c => c.getD j false)

/-- The source's row-elimination test `_s.row(_j).sum() as usize == _s.row(_j).len()`:
with 0/1 entries, the sum equals the length exactly when every entry is 1. -/
def rowAllOnes (m : Mat) (j : ℕ) : Bool :=
  m.all (fun c => c.getD j false)

/-- Row `j` is identically zero. -/
def rowAllZero (m : Mat) (j : ℕ) : Bool :=
  m.all (fun c => c.getD j false = false)

/-- `ndarray::Array2::is_empty`: some dimension is zero.  Work matrices always
have `n` rows, so with `n` passed explicitly this is `n = 0` or no columns. -/
def matIsEmpty (n : ℕ) (m : Mat) : Bool :=
  n == 0 || m.isEmpty

/-- The row operation `_temp_s[(_j, idx)] ^= _temp_s[(_ep, idx)]` for all `idx`,
performed column-wise: entry `j` of every column is XORed with entry `ep`. -/
def transvect (j ep : ℕ) (m : Mat) : Mat :=
  m.map (fun c => c.set j (xor (c.getD j false) (c.getD ep false)))

/-- Transpose the input row-major 0/1 matrix into its list of columns
(the `cnots.as_array().to_owned()` matrix, accessed column-wise). -/
def colsOf (rows : List (List Bool)) : Mat :=
  (List.range (rows.head?.getD []).length).map (fun j => rows.map (fun r => r.getD j false))

/-- The identity parity matrix `Array2::<u8>::eye(num_qubits)`, as rows. -/
def identityMat (n : ℕ) : List (List Bool) :=
  (List.range n).map (fun i => (List.range n).map (fun j => decide (i = j)))

/-- The state update of an emitted CNOT: `state[(ep, k)] ^= state[(j, k)]` for
all `k`; panics (`none`) when `ep` or `j` is not a row index. -/
def stateXor (state : List (List Bool)) (ep j : ℕ) : Option (List (List Bool)) :=
  if ep < state.length ∧ j < state.length then
    some (state.set ep (List.zipWith xor (state.getD ep []) (state.getD j [])))
  else none

/-- Case-insensitive ASCII comparison against a lowercase letter `k`. -/
def ciEq (c k : Char) : Bool :=
  c = k || c.toNat + 32 = k.toNat

/-- Case-insensitive match of `cs` against a lowercase keyword. -/
def ciMatch : List Char → List Char → Bool
  | [], [] => true
  | c :: cs, k :: ks => ciEq c k && ciMatch cs ks
  | _, _ => false

/-- Longest digit prefix: its length and the remainder. -/
def digitSpan : List Char → ℕ × List Char
  | [] => (0, [])
  | c :: r =>
    if '0' ≤ c && c ≤ '9' then
      let (k, rest) := digitSpan r
      (k + 1, rest)
    else (0, c :: r)

/-- Recogniser for Rust's `str::parse::<f64>` grammar:
`[+-]? ( inf | infinity | nan | digits [. digits*] [eE [+-] digits] | . digits [eE [+-] digits] )`,
keywords case-insensitive.  Only success/failure is relevant to the code. -/
def isF64String (s : String) : Bool :=
  let cs := s.toList
  let cs := match cs with
    | '+' :: r => r
    | '-' :: r => r
    | r => r
  let expOk : List Char → Bool := fun l =>
    match l with
    | [] => true
    | c :: r =>
      if c = 'e' || c = 'E' then
        let r := match r with
          | '+' :: r' => r'
          | '-' :: r' => r'
          | r' => r'
        let (k, rest) := digitSpan r
        k > 0 && rest = []
      else false
  if ciMatch cs ['i', 'n', 'f'] || ciMatch cs ['i', 'n', 'f', 'i', 'n', 'i', 't', 'y'] ||
      ciMatch cs ['n', 'a', 'n'] then
    true
  else
    let (k1, rest1) := digitSpan cs
    if k1 > 0 then
      match rest1 with
      | '.' :: r2 =>
        let (_, rest2) := digitSpan r2
        expOk rest2
      | r2 => expOk r2
    else
      match rest1 with
      | '.' :: r2 =>
        let (k2, rest2) := digitSpan r2
        k2 > 0 && expOk rest2
      | _ => false

/-- State of the pre-pass `InstructionIterator`: copies of the phase-term
matrix, the parity state, and the labels, plus the two scan cursors. -/
structure PrePass where
  s_cpy : Mat
  state_cpy : List (List Bool)
  rust_angles : List String
  num_qubits : ℕ
  qubit_idx : ℕ
  index : ℕ
deriving DecidableEq, Repr

/-- The source's `InstructionIterator::next`.  On a column/state-row match the
column and its label are removed and a gate is produced; the `"tgd"` string in
the `TdgGate` arm reproduces the source (line 77) verbatim.  A parse failure in
the fallback arm is `.ok()?`, i.e. the iterator simply ends (`none` item) with
the column and label already removed.  `Vec::remove` out of bounds panics.
The fuel only bounds the self-recursion (which provably needs no more than
`(num_qubits + 1) * (columns + 2)` steps); `none` means it ran out. -/
def nextInstr : ℕ → PrePass → Option (Except Err (Option Instruction × PrePass))
  | 0, _ => none
  | gas + 1, st =>
    if st.qubit_idx ≥ st.num_qubits then some (.ok (none, st))
    else if h : st.index < st.s_cpy.length then
      let icnot := st.s_cpy.get ⟨st.index, h⟩
      let target := st.state_cpy.getD st.qubit_idx []
      if icnot = target then
        match st.rust_angles.get? st.index with
        | none => some (.error .idxFail)
        | some angle =>
          let st' : PrePass :=
            { st with s_cpy := st.s_cpy.eraseIdx st.index
                      rust_angles := st.rust_angles.eraseIdx st.index }
          match angle with
          | "t" => some (.ok (some (Gate.T, [st.qubit_idx]), st'))
          | "tgd" => some (.ok (some (Gate.Tdg, [st.qubit_idx]), st'))
          | "s" => some (.ok (some (Gate.SGate, [st.qubit_idx]), st'))
          | "sdg" => some (.ok (some (Gate.Sdg, [st.qubit_idx]), st'))
          | "z" => some (.ok (some (Gate.Z, [st.qubit_idx]), st'))
          | a =>
            if isF64String a then some (.ok (some (Gate.Phase a, [st.qubit_idx]), st'))
            else some (.ok (none, st'))
      else nextInstr gas { st with index := st.index + 1 }
    else nextInstr gas { st with qubit_idx := st.qubit_idx + 1, index := 0 }

/-- `std::iter::from_fn(|| instr_iter.next()).collect()`: drain the iterator
until it yields `None`.  Every produced instruction removes a column, so the
iteration count is bounded by the column count. -/
def collectInstrs : ℕ → PrePass → Option (Except Err (List Instruction × PrePass))
  | 0, _ => none
  | gas + 1, st =>
    match nextInstr (gas + 1) st with
    | none => none
    | some (.error e) => some (.error e)
    | some (.ok (none, st')) => some (.ok ([], st'))
    | some (.ok (some i, st')) =>
      match collectInstrs gas st' with
      | none => none
      | some (.error e) => some (.error e)
      | some (.ok (rest, stf)) => some (.ok (i :: rest, stf))

/-- The engine's label-to-gate mapping (source lines 181..213): the five tags,
then the numeric fallback whose parse failure is a fatal `PyErr`. -/
def engineGate (gate : String) : Except Err Gate :=
  if gate = "t" then .ok Gate.T
  else if gate = "tdg" then .ok Gate.Tdg
  else if gate = "s" then .ok Gate.SGate
  else if gate = "sdg" then .ok Gate.Sdg
  else if gate = "z" then .ok Gate.Z
  else if isF64String gate then .ok (Gate.Phase gate)
  else .error (.parseFail gate)

/-- The immediate-match re-check of the row-elimination body (source lines
175..229): scan the global residual `s_cpy` for columns equal to `state.row(ep)`,
removing each match's label (first — `Vec::remove`, panicking out of bounds)
and column and emitting its gate on qubit `ep`, with the source's exact
`index`/`swtch` stepping and the `break` when the removal index reaches the
new column count.  The `swtch` assignments and the shared trailing step
`if swtch { index += 1 } else { swtch = true }` are fused into one branch per
case.  The loop provably needs at most `2 * columns + 2` steps of fuel. -/
def recheck (ep : ℕ) (target : List Bool) :
    ℕ → (index : ℕ) → (swtch : Bool) → Mat → List String → List Instruction →
    Option (Except Err (Mat × List String × List Instruction))
  | 0, _, _, _, _, _ => none
  | gas + 1, index, swtch, sc, ang, acc =>
    if h : index < sc.length then
      let icnot := sc.get ⟨index, h⟩
      if icnot = target then
        match ang.get? index with
        | none => some (.error .idxFail)
        | some gate =>
          let ang' := ang.eraseIdx index
          match engineGate gate with
          | .error e => some (.error e)
          | .ok g =>
            let acc' := acc ++ [(g, [ep])]
            if index = (sc.eraseIdx index).length then
              some (.ok (sc.eraseIdx index, ang', acc'))
            else if index = 0 then
              recheck ep target gas 0 true (sc.eraseIdx index) ang' acc'
            else if swtch then
              recheck ep target gas index swtch (sc.eraseIdx index) ang' acc'
            else
              recheck ep target gas (index - 1) true (sc.eraseIdx index) ang' acc'
      else
        if swtch then recheck ep target gas (index + 1) swtch sc ang acc
        else recheck ep target gas index true sc ang acc
    else some (.ok (sc, ang, acc))

/-- Global state of the partition engine: the work queue (a stack, top at the
end, as in `Vec::push`/`Vec::pop`), the parity `state`, the global residual
`s_cpy`/`rust_angles` from the pre-pass, and the emitted instructions. -/
structure EngSt where
  q : List WItem
  state : List (List Bool)
  s_cpy : Mat
  rust_angles : List String
  instrs : List Instruction
deriving DecidableEq, Repr

/-- The queue deduplication (source lines 232..239): keep the first occurrence
of each item, in order. -/
def dedupFirst (l : List WItem) : List WItem :=
  l.foldl (fun acc d => if acc.contains d then acc else acc ++ [d]) []

/-- Balance of row `j`: `max(#zeros, #ones)` (source lines 263..271). -/
def balance (m : Mat) (j : ℕ) : ℕ :=
  max ((matRow m j).countP (fun x => !x)) ((matRow m j).countP (fun x => x))

/-- Rust `max_by` bookkeeping: current position, best position, best value;
a new value `≥` the best replaces it, so ties favour the **last** maximum. -/
def argmaxLastAux : List ℕ → ℕ → ℕ → ℕ → ℕ
  | [], _, bi, _ => bi
  | v :: rest, i, bi, bv =>
    if bv ≤ v then argmaxLastAux rest (i + 1) i v
    else argmaxLastAux rest (i + 1) bi bv

/-- Rust `iter().enumerate().max_by(|(_, x), (_, y)| x.cmp(y)).map(|(idx, _)| idx)`:
`none` on the empty list, otherwise the index of the last maximum. -/
def argmaxLast : List ℕ → Option ℕ
  | [] => none
  | v :: rest => some (argmaxLastAux rest 1 0 v)

/-- The value tracked by `argmaxLastAux` at a result position `k`: the running
best `bv` when `k` predates the current frame `i`, else the list entry. -/
def amaxVal (l : List ℕ) (i bv k : ℕ) : ℕ :=
  if k < i then bv else l.getD (k - i) 0

/-- Pivot selection (source lines 263..282): per-row balances over all `n`
rows, restricted to the eligible rows `I` (`maxes[_i_idx]` panicking when out
of bounds), Rust's last-max `max_by` (`unwrap` panicking on an empty `I`),
and the chosen row `_i[argmax]`. -/
def pivotSelect (n : ℕ) (m : Mat) (I : List ℕ) : Except Err ℕ :=
  let maxes := (List.range n).map (balance m)
  match I.mapM (fun i => maxes.get? i) with
  | none => .error .idxFail
  | some maxes2 =>
    match argmaxLast maxes2 with
    | none => .error .guardFail
    | some idx => .ok (I.getD idx 0)

/-- One pass of the row-elimination `for _j in 0..num_qubits` loop (source
lines 162..255), with the remaining loop indices as a list.  When row `j ≠ ep`
of the current submatrix is all ones: emit `CNOT(j, ep)`, fold row `j` of
`state` into row `ep`, run the re-check against the updated `state.row(ep)`,
push the current item, deduplicate the queue, apply the row operation
`row j ^= row ep` to every non-empty queued submatrix, and pop the new
current item.  Returns the `condition` flag.  `fuel` is only handed on to the
re-check. -/
def elimFor (n fuel : ℕ) :
    List ℕ → Bool → WItem → EngSt → Option (Except Err (Bool × WItem × EngSt))
  | [], cond, cur, st => some (.ok (cond, cur, st))
  | j :: js, cond, cur, st =>
    if j ≠ cur.2.2 ∧ rowAllOnes cur.1 j then
      match stateXor st.state cur.2.2 j with
      | none => some (.error .idxFail)
      | some state' =>
        match recheck cur.2.2 (state'.getD cur.2.2 []) fuel 0 true
            st.s_cpy st.rust_angles [] with
        | none => none
        | some (.error e) => some (.error e)
        | some (.ok (sc', ang', emitted)) =>
          let q1 := st.q ++ [cur]
          let q2 := dedupFirst q1
          let q3 := q2.map (fun it =>
            if matIsEmpty n it.1 then it
            else (transvect j cur.2.2 it.1, it.2.1, it.2.2))
          match q3.getLast? with
          | none => some (.error .guardFail)
          | some cur' =>
            elimFor n fuel js true cur'
              { q := q3.dropLast, state := state', s_cpy := sc', rust_angles := ang',
                instrs := st.instrs ++ [(Gate.CX, [j, cur.2.2])] ++ emitted }
    else elimFor n fuel js cond cur st

/-- The row-elimination fixpoint `while condition` (source lines 158..256):
repeat full passes of `elimFor` over `0..n` until one makes no elimination. -/
def elimWhile (n : ℕ) : ℕ → WItem → EngSt → Option (Except Err (WItem × EngSt))
  | 0, _, _ => none
  | fuel + 1, cur, st =>
    match elimFor n (fuel + 1) (List.range n) false cur st with
    | none => none
    | some (.error e) => some (.error e)
    | some (.ok (false, cur', st')) => some (.ok (cur', st'))
    | some (.ok (true, cur', st')) => elimWhile n fuel cur' st'

/-- The partition-engine work-queue loop (source lines 150..327): pop an item
(the guarded `q.pop().unwrap()`); discard it if its matrix is empty; when the
excluded row is real (`ep < n`), run the row-elimination fixpoint; discard if
the eligible-row set is empty; otherwise select the pivot, read `column(0)`
(panicking on a columnless matrix), bipartition the columns by the pivot row,
and push the two children (`cnots1` first, then `cnots0`). -/
def engineLoop (n : ℕ) : ℕ → EngSt → Option (Except Err EngSt)
  | 0, st =>
    match st.q.getLast? with
    | none => some (.ok st)
    | some _ => none
  | fuel + 1, st =>
    match st.q.getLast? with
    | none => some (.ok st)
    | some cur =>
      let st0 : EngSt := { st with q := st.q.dropLast }
      if matIsEmpty n cur.1 then engineLoop n fuel st0
      else
        match (if cur.2.2 < n then elimWhile n (fuel + 1) cur st0
               else some (.ok (cur, st0))) with
        | none => none
        | some (.error e) => some (.error e)
        | some (.ok (cur2, st2)) =>
          if cur2.2.1.isEmpty then engineLoop n fuel st2
          else
            match pivotSelect n cur2.1 cur2.2.1 with
            | .error e => some (.error e)
            | .ok pj =>
              match cur2.1 with
              | [] => some (.error .guardFail)
              | _ :: _ =>
                let cnots1 := cur2.1.filter (fun c => c.getD pj false = true)
                let cnots0 := cur2.1.filter (fun c => c.getD pj false = false)
                let ni := cur2.2.1.filter (fun x => x ≠ pj)
                let item1 : WItem :=
                  if cur2.2.2 = n then (cnots1, ni, pj) else (cnots1, ni, cur2.2.2)
                let item0 : WItem := (cnots0, ni, cur2.2.2)
                engineLoop n fuel { st2 with q := st2.q ++ [item1, item0] }

/-- The initial work item pushed on the queue (source line 148): the **original**
matrix `s`, every row index, and the sentinel `epsilon = num_qubits`. -/
def initialWorkItem (cnots : List (List Bool)) : WItem :=
  (colsOf cnots, List.range cnots.length, cnots.length)

/-- Result of `synth_cnot_phase_aam` up to the excluded externals: the emitted
instruction list, the final parity `state` handed to the residual linear
synthesizer (`synth_pmh`), and the final global residual matrix and labels. -/
structure SynthResult where
  instrs : List Instruction
  state : List (List Bool)
  s_cpy : Mat
  rust_angles : List String
deriving DecidableEq, Repr

/-- The whole of `synth_cnot_phase_aam` (source lines 123..334) short of the
excluded externals (§1 of the spec): argument marshalling, `synth_pmh` and
`CircuitData` construction.  `none` when the loop fuel runs out. -/
def synthRun (fuel : ℕ) (cnots : List (List Bool)) (angles : List String) :
    Option (Except Err SynthResult) :=
  let n := cnots.length
  let s := colsOf cnots
  let state0 := identityMat n
  match collectInstrs fuel ⟨s, state0, angles, n, 0, 0⟩ with
  | none => none
  | some (.error e) => some (.error e)
  | some (.ok (ins, pp)) =>
    let st0 : EngSt :=
      { q := [initialWorkItem cnots], state := state0,
        s_cpy := pp.s_cpy, rust_angles := pp.rust_angles, instrs := ins }
    match engineLoop n fuel st0 with
    | none => none
    | some (.error e) => some (.error e)
    | some (.ok st) => some (.ok ⟨st.instrs, st.state, st.s_cpy, st.rust_angles⟩)

/-- Number of phase gates (everything except `CX`) in an instruction list. -/
def phaseGateCount (l : List Instruction) : ℕ :=
  (l.filter (fun i => i.1 ≠ Gate.CX)).length

/-- One step of the CNOT replay: `CX [j, ep]` folds row `j` into row `ep`
(exactly the `state` update the source performs when emitting a CNOT);
every other instruction leaves the state alone. -/
def replayStepFn (st : List (List Bool)) (i : Instruction) : List (List Bool) :=
  match i with
  | (Gate.CX, [c, t]) => (stateXor st t c).getD st
  | _ => st

/-- Replay the `CX` instructions of a list, in order, from a given state. -/
def replayFrom (st : List (List Bool)) (l : List Instruction) : List (List Bool) :=
  l.foldl replayStepFn st

/-- Replay the `CX` instructions of a list, in order, as row-XOR updates
starting from the identity. -/
def replayCX (n : ℕ) (l : List Instruction) : List (List Bool) :=
  replayFrom (identityMat n) l

/-- Modelled from the spec: pivot selection with ties broken by the FIRST
occurrence in the iteration order of `I` ("Choose the row j* in I with maximal
balance (ties broken by first occurrence in I's iteration order)"), for
comparison with the code's `pivotSelect`. -/
def pivotSelectSpecFirst (n : ℕ) (m : Mat) (I : List ℕ) : Option ℕ :=
  let maxes := (List.range n).map (balance m)
  let maxes2 := I.map (fun i => maxes.getD i 0)
  match maxes2.maximum? with
  | none => none
  | some mx => (I.zip maxes2).findSome? (fun p => if p.2 = mx then some p.1 else none)

/-- Modelled from the spec: the variant of `synthRun` whose partition engine is
seeded with the pre-pass **residual** matrix ("a stack (LIFO) of Work Items,
initialized with one item: (full residual S, all row indices 0..n,
excluded=none)"), for comparison with the code, which seeds it with the
original matrix `s`. -/
def synthRunSpecSeeded (fuel : ℕ) (cnots : List (List Bool)) (angles : List String) :
    Option (Except Err SynthResult) :=
  let n := cnots.length
  let s := colsOf cnots
  let state0 := identityMat n
  match collectInstrs fuel ⟨s, state0, angles, n, 0, 0⟩ with
  | none => none
  | some (.error e) => some (.error e)
  | some (.ok (ins, pp)) =>
    let st0 : EngSt :=
      { q := [(pp.s_cpy, List.range n, n)], state := state0,
        s_cpy := pp.s_cpy, rust_angles := pp.rust_angles, instrs := ins }
    match engineLoop n fuel st0 with
    | none => none
    | some (.error e) => some (.error e)
    | some (.ok st) => some (.ok ⟨st.instrs, st.state, st.s_cpy, st.rust_angles⟩)

/-- Structural invariant of a work item: every eligible row index is a real
row (`< n`) and the excluded row is never among the eligible rows. -/
def ItemInv (n : ℕ) (it : WItem) : Prop :=
  (∀ i ∈ it.2.1, i < n) ∧ it.2.2 ∉ it.2.1

/-- Structural invariant of the engine state: every queued item is sound. -/
def QInv (n : ℕ) (st : EngSt) : Prop :=
  ∀ it ∈ st.q, ItemInv n it

/-- The per-item update applied to every queued work item when a row is
eliminated (source lines 241..252): empty submatrices are left alone, all
others get the row operation `row j ^= row ep`. -/
def elimMap (n j ep : ℕ) (it : WItem) : WItem :=
  if matIsEmpty n it.1 then it else (transvect j ep it.1, it.2.1, it.2.2)

/-- Termination measure of the work queue: each item weighs `3 ^ |I|`, so
replacing one item by two children with strictly smaller eligible-row sets
strictly decreases the total. -/
def measureQ (q : List WItem) : ℕ :=
  (q.map (fun it => 3 ^ it.2.1.length)).sum

/-- The queue is stair shaped: items pushed later (towards the stack top)
never have more eligible rows than items below them. -/
def StairRel (a b : WItem) : Prop :=
  b.2.1.length ≤ a.2.1.length

/-- Subtree protection: when a later item `b` coexists with an earlier item
`a` whose excluded row is real, either `b` lives in the same elimination
subtree (same excluded row) or `a`'s excluded row is identically zero in
`b`'s submatrix, so row operations on `b` can never target `a`'s row. -/
def ProtRel (n : ℕ) (a b : WItem) : Prop :=
  a.2.2 < n → b.2.2 = a.2.2 ∨ rowAllZero b.1 a.2.2 = true

/-- The full engine-queue invariant driving termination: pairwise-distinct
items (so the deduplication is the identity and the re-pushed item is popped
back unchanged), the stair shape, subtree protection, and the all-ones
excluded row of every item whose excluded row is real. -/
def EngInv (n : ℕ) (q : List WItem) : Prop :=
  q.Nodup ∧ List.Pairwise StairRel q ∧ List.Pairwise (ProtRel n) q ∧
    (∀ it ∈ q, it.2.2 < n → rowAllOnes it.1 it.2.2 = true)

/-! ## Basic evaluation theorems for the concrete claims -/

/-- C1: refuted by the code as written.  On the well-formed input `n = 1`,
matrix `[[1]]`, labels `["tdg"]` (a valid symbolic tag), the pre-pass matches
the column, removes it together with its label, but the source's `"tgd"` typo
(line 77) sends `"tdg"` to the numeric fallback, whose parse failure silently
ends the iterator: the run succeeds with **zero** phase gates emitted while
`m = 1`, so the total phase-gate count does not equal `m` and the label is
consumed by no gate. -/
theorem c1_column_conservation_violated :
    synthRun 10 [[true]] ["tdg"] = some (.ok ⟨[], [[true]], [], []⟩) ∧
    phaseGateCount [] ≠ ["tdg"].length := by
  constructor
  · decide
  · decide

/-- C3: refuted by the code as written.  In the pre-pass, a `"tdg"` label whose
column matches is consumed (column and label removed) without any gate being
emitted, because `InstructionIterator::next` matches the misspelled string
`"tgd"`; the engine's own mapping (`engineGate`) correctly sends `"tdg"` to
`TdgGate`, witnessing that the pre-pass string is a slip. -/
theorem c3_tdg_prepass_drops_gate :
    collectInstrs 10 ⟨[[true]], [[true]], ["tdg"], 1, 0, 0⟩ =
      some (.ok ([], ⟨[], [[true]], [], 1, 0, 0⟩)) ∧
    engineGate "tdg" = .ok Gate.Tdg := by
  constructor
  · decide
  · decide

/-- C4 counterexample: a malformed label `"xyz"` whose column is matched in the
pre-pass does **not** make the call fail: the parse failure is `.ok()?`, the
iterator just stops (with the column and label already consumed) and the
synthesis call returns a successful result, contradicting the claim that any
match of an unparseable label propagates a fatal parse error. -/
theorem c4_prepass_parse_failure_not_fatal :
    synthRun 10 [[true]] ["xyz"] = some (.ok ⟨[], [[true]], [], []⟩) := by
  decide

/-- C4 amended: only the engine's numeric fallback propagates the parse error.
When the malformed label `"xyz"` is matched inside the partition engine's
re-check (input `[[1], [1]]`, which the pre-pass cannot match), the whole call
fails with the parse error and no result is produced, while the same label
matched in the pre-pass ends the pre-pass silently and the call succeeds. -/
theorem c4_engine_parse_failure_fatal :
    synthRun 10 [[true], [true]] ["xyz"] = some (.error (.parseFail "xyz")) ∧
    synthRun 10 [[true]] ["xyz"] = some (.ok ⟨[], [[true]], [], []⟩) := by
  constructor
  · decide
  · decide

/-- C5 counterexample: for input `[[1]]` with label `["t"]` the pre-pass
consumes the only column (residual matrix empty), yet the work item the engine
is seeded with (source line 148) carries the untouched original matrix
`[[1]]`, not the residual. -/
theorem c5_initial_item_not_residual :
    collectInstrs 10 ⟨colsOf [[true]], identityMat 1, ["t"], 1, 0, 0⟩ =
      some (.ok ([(Gate.T, [0])], ⟨[], [[true]], [], 1, 1, 0⟩)) ∧
    initialWorkItem [[true]] = ([[true]], [0], 1) ∧
    ([[true]] : Mat) ≠ ([] : Mat) := by
  refine ⟨by decide, by decide, by decide⟩

/-- C5 amended: the work queue is initialized with one item carrying the
**original** matrix, all row indices and the sentinel `n`; the pre-pass
residual only seeds the global match list.  The difference is observable: on
`[[1,1],[0,1]]` with labels `["t","t"]` the code (original-matrix seeding) and
the spec's residual seeding produce different circuits. -/
theorem c5_initial_item_is_original :
    (∀ cnots : List (List Bool),
      initialWorkItem cnots = (colsOf cnots, List.range cnots.length, cnots.length)) ∧
    synthRun 40 [[true, true], [false, true]] ["t", "t"] =
      some (.ok ⟨[(Gate.T, [0]), (Gate.CX, [1, 0]), (Gate.T, [0])],
        [[true, true], [false, true]], [], []⟩) ∧
    synthRunSpecSeeded 40 [[true, true], [false, true]] ["t", "t"] =
      some (.ok ⟨[(Gate.T, [0]), (Gate.CX, [0, 1]), (Gate.T, [1])],
        [[true, false], [true, true]], [], []⟩) := by
  refine ⟨fun _ => rfl, by decide, by decide⟩

/-- C6 counterexample: on the submatrix `[[1,1]]` (one column, two rows) both
rows have balance 1; the source's `max_by` keeps the **last** maximal element,
so with eligible rows `[0, 1]` the code picks row 1 while the spec's
first-occurrence tie-break picks row 0. -/
theorem c6_tie_break_is_last_not_first :
    pivotSelect 2 [[true, true]] [0, 1] = .ok 1 ∧
    pivotSelectSpecFirst 2 [[true, true]] [0, 1] = some 0 ∧
    balance [[true, true]] 0 = balance [[true, true]] 1 ∧
    (1 : ℕ) ≠ 0 := by
  refine ⟨by decide, by decide, by decide, by decide⟩

/-- C8 counterexample: with more labels than columns (`[[1]]` with
`["t","t"]`) the call does not fail at all — there is no length validation;
synthesis runs and the surplus label is silently left over. -/
theorem c8_no_length_validation :
    ∃ r, synthRun 10 [[true]] ["t", "t"] = some (.ok r) := by
  exact ⟨⟨[(Gate.T, [0])], [[true]], [], ["t"]⟩, by decide⟩

/-- C8 amended: `synth_cnot_phase_aam` performs no matrix/label length
validation.  Surplus labels are silently ignored (the call succeeds, the extra
label survives); missing labels make the call die with an out-of-bounds
`Vec::remove` panic in the middle of synthesis (after the matching column has
already been removed), not with an up-front precondition failure. -/
theorem c8_mismatch_behaviour :
    synthRun 10 [[true]] ["t", "t"] =
      some (.ok ⟨[(Gate.T, [0])], [[true]], [], ["t"]⟩) ∧
    synthRun 10 [[true]] ([] : List String) = some (.error .idxFail) := by
  constructor
  · decide
  · decide

/-! ## Characterisation of the last-maximum pivot choice -/

/-- Invariant of the `max_by` fold: the result is either the incoming best
position (below the frame `i`) or a position in the remaining list; its value
dominates the incoming best and every list entry, and every entry strictly
after the result position is strictly smaller. -/
theorem argmaxLastAux_spec :
    ∀ (l : List ℕ) (i bi bv : ℕ), bi < i →
      (argmaxLastAux l i bi bv = bi ∨
        ∃ p, p < l.length ∧ argmaxLastAux l i bi bv = i + p) ∧
      bv ≤ amaxVal l i bv (argmaxLastAux l i bi bv) ∧
      (∀ p, p < l.length → l.getD p 0 ≤ amaxVal l i bv (argmaxLastAux l i bi bv)) ∧
      (∀ p, p < l.length → i + p > argmaxLastAux l i bi bv →
        l.getD p 0 < amaxVal l i bv (argmaxLastAux l i bi bv))
  | [], i, bi, bv, hbi => by
    refine ⟨Or.inl rfl, ?_, ?_, ?_⟩
    · simp [argmaxLastAux, amaxVal, hbi]
    · intro p hp; simp at hp
    · intro p hp; simp at hp
  | v :: rest, i, bi, bv, hbi => by
    by_cases hle : bv ≤ v
    · obtain ⟨hmem, hbv, hall, hafter⟩ := argmaxLastAux_spec rest (i + 1) i v (by omega)
      have hK : argmaxLastAux (v :: rest) i bi bv = argmaxLastAux rest (i + 1) i v := by
        simp [argmaxLastAux, hle]
      have hge : i ≤ argmaxLastAux rest (i + 1) i v := by
        rcases hmem with h0 | ⟨p, _, hp⟩
        · omega
        · omega
      have hval : amaxVal (v :: rest) i bv (argmaxLastAux rest (i + 1) i v) =
          amaxVal rest (i + 1) v (argmaxLastAux rest (i + 1) i v) := by
        rcases hmem with h0 | ⟨p, hp, hpk⟩
        · rw [h0]
          have h1 : ¬ (i < i) := by omega
          have h2 : i < i + 1 := by omega
          simp only [amaxVal, if_neg h1, if_pos h2, Nat.sub_self, List.getD_cons_zero]
        · rw [hpk]
          have h1 : ¬ (i + 1 + p < i) := by omega
          have h2 : ¬ (i + 1 + p < i + 1) := by omega
          simp only [amaxVal, if_neg h1, if_neg h2]
          have h3 : i + 1 + p - i = p + 1 := by omega
          have h4 : i + 1 + p - (i + 1) = p := by omega
          rw [h3, h4, List.getD_cons_succ]
      rw [hK, hval]
      refine ⟨?_, ?_, ?_, ?_⟩
      · rcases hmem with h0 | ⟨p, hp, hpk⟩
        · refine Or.inr ⟨0, by simp, by omega⟩
        · refine Or.inr ⟨p + 1, ?_, by omega⟩
          simp only [List.length_cons]
          omega
      · exact le_trans hle hbv
      · intro p hp
        match p with
        | 0 => simpa using hbv
        | q + 1 =>
          have hq : q < rest.length := by simpa using hp
          simpa using hall q hq
      · intro p hp hgt
        match p with
        | 0 => omega
        | q + 1 =>
          have hq : q < rest.length := by simpa using hp
          have : i + 1 + q > argmaxLastAux rest (i + 1) i v := by omega
          simpa using hafter q hq this
    · obtain ⟨hmem, hbv, hall, hafter⟩ := argmaxLastAux_spec rest (i + 1) bi bv (by omega)
      have hK : argmaxLastAux (v :: rest) i bi bv = argmaxLastAux rest (i + 1) bi bv := by
        simp [argmaxLastAux, hle]
      have hval : amaxVal (v :: rest) i bv (argmaxLastAux rest (i + 1) bi bv) =
          amaxVal rest (i + 1) bv (argmaxLastAux rest (i + 1) bi bv) := by
        rcases hmem with h0 | ⟨p, hp, hpk⟩
        · rw [h0]
          have hbi1 : bi < i + 1 := by omega
          simp [amaxVal, hbi, hbi1]
        · rw [hpk]
          have h1 : ¬ (i + 1 + p < i) := by omega
          have h2 : ¬ (i + 1 + p < i + 1) := by omega
          simp only [amaxVal, if_neg h1, if_neg h2]
          have h3 : i + 1 + p - i = p + 1 := by omega
          have h4 : i + 1 + p - (i + 1) = p := by omega
          rw [h3, h4, List.getD_cons_succ]
      rw [hK, hval]
      refine ⟨?_, ?_, ?_, ?_⟩
      · rcases hmem with h0 | ⟨p, hp, hpk⟩
        · exact Or.inl h0
        · refine Or.inr ⟨p + 1, ?_, by omega⟩
          simp only [List.length_cons]
          omega
      · exact hbv
      · intro p hp
        match p with
        | 0 =>
          have : v < bv := by omega
          simpa using le_trans (le_of_lt this) hbv
        | q + 1 =>
          have hq : q < rest.length := by simpa using hp
          simpa using hall q hq
      · intro p hp hgt
        match p with
        | 0 =>
          have hv : v < bv := by omega
          simpa using lt_of_lt_of_le hv hbv
        | q + 1 =>
          have hq : q < rest.length := by simpa using hp
          have : i + 1 + q > argmaxLastAux rest (i + 1) bi bv := by omega
          simpa using hafter q hq this

/-- `argmaxLast` on a non-empty list returns the position of the maximum,
and every entry strictly after that position is strictly smaller (Rust
`max_by` keeps the last maximal element). -/
theorem argmaxLast_spec (l : List ℕ) (hne : l ≠ []) :
    ∃ k, k < l.length ∧ argmaxLast l = some k ∧
      (∀ p, p < l.length → l.getD p 0 ≤ l.getD k 0) ∧
      (∀ p, p < l.length → p > k → l.getD p 0 < l.getD k 0) := by
  match l, hne with
  | v :: rest, _ =>
    obtain ⟨hmem, hbv, hall, hafter⟩ := argmaxLastAux_spec rest 1 0 v (by omega)
    refine ⟨argmaxLastAux rest 1 0 v, ?_, rfl, ?_, ?_⟩
    · rcases hmem with h0 | ⟨p, hp, hpk⟩
      · simp [h0]
      · simp only [List.length_cons]; omega
    · have hval : amaxVal rest 1 v (argmaxLastAux rest 1 0 v) =
          (v :: rest).getD (argmaxLastAux rest 1 0 v) 0 := by
        rcases hmem with h0 | ⟨p, hp, hpk⟩
        · rw [h0]; simp [amaxVal]
        · rw [hpk]
          have h2 : ¬ (1 + p < 1) := by omega
          simp only [amaxVal, if_neg h2]
          have h3 : 1 + p - 1 = p := by omega
          have h4 : 1 + p = p + 1 := by omega
          rw [h3, h4, List.getD_cons_succ]
      intro p hp
      match p with
      | 0 => rw [List.getD_cons_zero, ← hval]; exact hbv
      | q + 1 =>
        have hq : q < rest.length := by simpa using hp
        rw [List.getD_cons_succ, ← hval]
        exact hall q hq
    · have hval : amaxVal rest 1 v (argmaxLastAux rest 1 0 v) =
          (v :: rest).getD (argmaxLastAux rest 1 0 v) 0 := by
        rcases hmem with h0 | ⟨p, hp, hpk⟩
        · rw [h0]; simp [amaxVal]
        · rw [hpk]
          have h2 : ¬ (1 + p < 1) := by omega
          simp only [amaxVal, if_neg h2]
          have h3 : 1 + p - 1 = p := by omega
          have h4 : 1 + p = p + 1 := by omega
          rw [h3, h4, List.getD_cons_succ]
      intro p hp hgt
      match p with
      | 0 => omega
      | q + 1 =>
        have hq : q < rest.length := by simpa using hp
        have hgt' : 1 + q > argmaxLastAux rest 1 0 v := by omega
        rw [List.getD_cons_succ, ← hval]
        exact hafter q hq hgt'

/-- Helper: `mapM` over `Option` succeeds pointwise. -/
theorem mapM_get?_eq_map (g : ℕ → ℕ) (maxes : List ℕ) :
    ∀ (I : List ℕ), (∀ i ∈ I, maxes.get? i = some (g i)) →
      I.mapM (fun i => maxes.get? i) = some (I.map g)
  | [], _ => rfl
  | a :: as, hs => by
    have ha := hs a (List.mem_cons_self a as)
    have ih := mapM_get?_eq_map g maxes as (fun i hi => hs i (List.mem_cons_of_mem a hi))
    simp only [List.mapM_cons, ha, ih, List.map_cons]
    rfl

/-- Helper: `getD` through `map` inside the list bounds. -/
theorem getD_map_lt (g : ℕ → ℕ) (I : List ℕ) (p : ℕ) (hp : p < I.length) :
    (I.map g).getD p 0 = g (I.getD p 0) := by
  rw [List.getD_eq_getElem?_getD, List.getD_eq_getElem?_getD, List.getElem?_map]
  rw [List.getElem?_eq_getElem hp]
  rfl

/-- C6 amended: for a non-empty eligible-row list whose entries are row
indices, the pivot the code selects is the row at a position `k` of `I` whose
balance is maximal, and every position after `k` has strictly smaller balance
— i.e. ties are broken by the **last** occurrence in `I`'s iteration order,
not the first. -/
theorem c6_pivot_is_last_argmax (n : ℕ) (m : Mat) (I : List ℕ)
    (hne : I ≠ []) (hb : ∀ i ∈ I, i < n) :
    ∃ k, k < I.length ∧ pivotSelect n m I = .ok (I.getD k 0) ∧
      (∀ l, l < I.length → balance m (I.getD l 0) ≤ balance m (I.getD k 0)) ∧
      (∀ l, l < I.length → l > k → balance m (I.getD l 0) < balance m (I.getD k 0)) := by
  have hsome : ∀ i ∈ I, ((List.range n).map (balance m)).get? i = some (balance m i) := by
    intro i hi
    rw [List.get?_eq_getElem?, List.getElem?_map, List.getElem?_range (hb i hi)]
    rfl
  have hmapM := mapM_get?_eq_map (balance m) ((List.range n).map (balance m)) I hsome
  have hmapne : I.map (balance m) ≠ [] := by
    intro hc
    exact hne (List.map_eq_nil.mp hc)
  obtain ⟨k, hk, hargmax, hall, hafter⟩ := argmaxLast_spec (I.map (balance m)) hmapne
  rw [List.length_map] at hk
  refine ⟨k, hk, ?_, ?_, ?_⟩
  · unfold pivotSelect
    simp only [hmapM, hargmax]
  · intro l hl
    have h1 := hall l (by rw [List.length_map]; exact hl)
    rwa [getD_map_lt _ _ _ hl, getD_map_lt _ _ _ hk] at h1
  · intro l hl hlk
    have h1 := hafter l (by rw [List.length_map]; exact hl) hlk
    rwa [getD_map_lt _ _ _ hl, getD_map_lt _ _ _ hk] at h1

/-- Witness for the amended C6 theorem at the concrete tie input. -/
theorem c6_pivot_is_last_argmax_witness :
    ∃ k, k < ([0, 1] : List ℕ).length ∧
      pivotSelect 2 [[true, true]] [0, 1] = .ok (([0, 1] : List ℕ).getD k 0) ∧
      (∀ l, l < ([0, 1] : List ℕ).length →
        balance [[true, true]] (([0, 1] : List ℕ).getD l 0) ≤
          balance [[true, true]] (([0, 1] : List ℕ).getD k 0)) ∧
      (∀ l, l < ([0, 1] : List ℕ).length → l > k →
        balance [[true, true]] (([0, 1] : List ℕ).getD l 0) <
          balance [[true, true]] (([0, 1] : List ℕ).getD k 0)) :=
  c6_pivot_is_last_argmax 2 [[true, true]] [0, 1] (by decide) (by decide)

/-! ## Label/column alignment (claim C7) -/

/-- A successful `InstructionIterator::next` step preserves
`len(rust_angles) = columns(s_cpy)`: the label and the column are removed
in the same step (also on the silent parse-failure return, where both have
already been removed before the parse is attempted). -/
theorem nextInstr_align :
    ∀ (gas : ℕ) (st : PrePass) (x : Option Instruction) (st' : PrePass),
      nextInstr gas st = some (.ok (x, st')) →
      st.rust_angles.length = st.s_cpy.length →
      st'.rust_angles.length = st'.s_cpy.length := by
  intro gas
  induction gas with
  | zero =>
    intro st x st' h
    simp [nextInstr] at h
  | succ gas ih =>
    intro st x st' h halign
    simp only [nextInstr] at h
    split at h
    · rw [Option.some.injEq, Except.ok.injEq, Prod.mk.injEq] at h
      rw [← h.2]
      exact halign
    · split at h
      case isTrue hlt =>
        by_cases hic :
            List.get st.s_cpy ⟨st.index, hlt⟩ = st.state_cpy.getD st.qubit_idx []
        · rw [if_pos hic] at h
          split at h
          · exact absurd h (by simp)
          · rename_i angle hget
            have hai : st.index < st.rust_angles.length :=
              (List.get?_eq_some.mp hget).1
            have hgoal : (st.rust_angles.eraseIdx st.index).length =
                (st.s_cpy.eraseIdx st.index).length := by
              rw [List.length_eraseIdx_of_lt hai, List.length_eraseIdx_of_lt hlt, halign]
            split at h <;> (try split at h) <;>
              (try rw [Option.some.injEq, Except.ok.injEq, Prod.mk.injEq] at h) <;>
              first
                | (rw [← h.2]
                   exact hgoal)
                | simp at h
        · rw [if_neg hic] at h
          exact ih _ _ _ h halign
      case isFalse =>
        exact ih _ _ _ h halign

/-- Draining the iterator preserves the alignment invariant. -/
theorem collectInstrs_align :
    ∀ (gas : ℕ) (st : PrePass) (ins : List Instruction) (st' : PrePass),
      collectInstrs gas st = some (.ok (ins, st')) →
      st.rust_angles.length = st.s_cpy.length →
      st'.rust_angles.length = st'.s_cpy.length := by
  intro gas
  induction gas with
  | zero =>
    intro st ins st' h
    simp [collectInstrs] at h
  | succ gas ih =>
    intro st ins st' h halign
    rw [collectInstrs] at h
    split at h
    · exact absurd h (by simp)
    · exact absurd h (by simp)
    · rename_i st1 heq
      rw [Option.some.injEq, Except.ok.injEq, Prod.mk.injEq] at h
      rw [← h.2]
      exact nextInstr_align _ _ _ _ heq halign
    · rename_i i st1 heq
      have h1 := nextInstr_align _ _ _ _ heq halign
      split at h
      · exact absurd h (by simp)
      · exact absurd h (by simp)
      · rename_i rest stf heq2
        rw [Option.some.injEq, Except.ok.injEq, Prod.mk.injEq] at h
        rw [← h.2]
        exact ih _ _ _ heq2 h1

/-- The engine's re-check loop preserves `len(rust_angles) = columns(s_cpy)`:
each match removes the label and the column together before continuing, and
the parse-failure case aborts the whole call rather than returning a state. -/
theorem recheck_align :
    ∀ (gas ep : ℕ) (target : List Bool) (index : ℕ) (swtch : Bool) (sc : Mat)
      (ang : List String) (acc : List Instruction)
      (out : Mat × List String × List Instruction),
      recheck ep target gas index swtch sc ang acc = some (.ok out) →
      ang.length = sc.length →
      out.2.1.length = out.1.length := by
  intro gas
  induction gas with
  | zero =>
    intro ep target index swtch sc ang acc out h
    simp [recheck] at h
  | succ gas ih =>
    intro ep target index swtch sc ang acc out h halign
    simp only [recheck] at h
    split at h
    case isFalse =>
      rw [Option.some.injEq, Except.ok.injEq] at h
      rw [← h]
      exact halign
    case isTrue hlt =>
      split at h
      · -- column matches the target row
        split at h
        · -- label lookup panicked: impossible in the ok case
          simp at h
        · rename_i gate hget
          have hai : index < ang.length := (List.get?_eq_some.mp hget).1
          have halign' : (ang.eraseIdx index).length = (sc.eraseIdx index).length := by
            rw [List.length_eraseIdx_of_lt hai, List.length_eraseIdx_of_lt hlt, halign]
          split at h
          · simp at h
          · split at h
            · rw [Option.some.injEq, Except.ok.injEq] at h
              rw [← h]
              exact halign'
            · split at h
              · exact ih _ _ _ _ _ _ _ _ h halign'
              · split at h
                · exact ih _ _ _ _ _ _ _ _ h halign'
                · exact ih _ _ _ _ _ _ _ _ h halign'
      · -- no match: only the cursor moves
        split at h
        · exact ih _ _ _ _ _ _ _ _ h halign
        · exact ih _ _ _ _ _ _ _ _ h halign

/-- One elimination pass preserves the alignment invariant: the global
residual and label list are only touched by the re-check. -/
theorem elimFor_align :
    ∀ (js : List ℕ) (n fuel : ℕ) (cond : Bool) (cur : WItem) (st : EngSt)
      (out : Bool × WItem × EngSt),
      elimFor n fuel js cond cur st = some (.ok out) →
      st.rust_angles.length = st.s_cpy.length →
      out.2.2.rust_angles.length = out.2.2.s_cpy.length := by
  intro js
  induction js with
  | nil =>
    intro n fuel cond cur st out h halign
    simp only [elimFor, Option.some.injEq, Except.ok.injEq] at h
    rw [← h]
    exact halign
  | cons j js ih =>
    intro n fuel cond cur st out h halign
    simp only [elimFor] at h
    split at h
    · split at h
      · simp at h
      · split at h
        · simp at h
        · simp at h
        · rename_i state' hstate sc' ang' emitted hrecheck
          have halign' : ang'.length = sc'.length :=
            recheck_align _ _ _ _ _ _ _ _ (sc', ang', emitted) hrecheck halign
          split at h
          · simp at h
          · exact ih _ _ _ _ _ _ h halign'
    · exact ih _ _ _ _ _ _ h halign

/-- The row-elimination fixpoint preserves the alignment invariant. -/
theorem elimWhile_align :
    ∀ (fuel n : ℕ) (cur : WItem) (st : EngSt) (out : WItem × EngSt),
      elimWhile n fuel cur st = some (.ok out) →
      st.rust_angles.length = st.s_cpy.length →
      out.2.rust_angles.length = out.2.s_cpy.length := by
  intro fuel
  induction fuel with
  | zero =>
    intro n cur st out h
    simp [elimWhile] at h
  | succ fuel ih =>
    intro n cur st out h halign
    simp only [elimWhile] at h
    split at h
    · simp at h
    · simp at h
    · rename_i cur' st' heq
      rw [Option.some.injEq, Except.ok.injEq] at h
      rw [← h]
      exact elimFor_align _ _ _ _ _ _ _ heq halign
    · rename_i cur' st' heq
      exact ih _ _ _ _ h (elimFor_align _ _ _ _ _ _ _ heq halign)

/-- The work-queue loop preserves the alignment invariant. -/
theorem engineLoop_align :
    ∀ (fuel n : ℕ) (st : EngSt) (out : EngSt),
      engineLoop n fuel st = some (.ok out) →
      st.rust_angles.length = st.s_cpy.length →
      out.rust_angles.length = out.s_cpy.length := by
  intro fuel
  induction fuel with
  | zero =>
    intro n st out h halign
    rw [engineLoop] at h
    split at h
    · rw [Option.some.injEq, Except.ok.injEq] at h
      rw [← h]
      exact halign
    · simp at h
  | succ fuel ih =>
    intro n st out h halign
    rw [engineLoop] at h
    split at h
    · rw [Option.some.injEq, Except.ok.injEq] at h
      rw [← h]
      exact halign
    · simp only at h
      split at h
      · exact ih _ _ _ h halign
      · split at h
        · simp at h
        · simp at h
        · rename_i cur2 st2 hfix
          have halign2 : st2.rust_angles.length = st2.s_cpy.length := by
            split at hfix
            · exact elimWhile_align _ _ _ _ _ hfix halign
            · rw [Option.some.injEq, Except.ok.injEq, Prod.mk.injEq] at hfix
              rw [← hfix.2]
              exact halign
          split at h
          · exact ih _ _ _ h halign2
          · split at h
            · simp at h
            · split at h
              · simp at h
              · exact ih _ _ _ h halign2

/-- C7: the remaining-label list and the global residual matrix stay aligned
(`len(rust_angles) = columns(s_cpy)`) through every step of synthesis: each
`InstructionIterator::next` step, each engine re-check, and hence the whole
call — whenever a state is produced, label and column were removed together
(a parse failure in the engine aborts the call instead of leaving a state). -/
theorem c7_label_column_alignment :
    (∀ (gas : ℕ) (st : PrePass) (x : Option Instruction) (st' : PrePass),
      nextInstr gas st = some (.ok (x, st')) →
      st.rust_angles.length = st.s_cpy.length →
      st'.rust_angles.length = st'.s_cpy.length) ∧
    (∀ (gas ep : ℕ) (target : List Bool) (index : ℕ) (swtch : Bool) (sc : Mat)
      (ang : List String) (acc : List Instruction)
      (out : Mat × List String × List Instruction),
      recheck ep target gas index swtch sc ang acc = some (.ok out) →
      ang.length = sc.length →
      out.2.1.length = out.1.length) ∧
    (∀ (fuel : ℕ) (cnots : List (List Bool)) (angles : List String) (r : SynthResult),
      synthRun fuel cnots angles = some (.ok r) →
      angles.length = (colsOf cnots).length →
      r.rust_angles.length = r.s_cpy.length) := by
  refine ⟨nextInstr_align, recheck_align, ?_⟩
  intro fuel cnots angles r h halign
  simp only [synthRun] at h
  split at h
  · simp at h
  · simp at h
  · rename_i ins pp hcollect
    have h1 : pp.rust_angles.length = pp.s_cpy.length :=
      collectInstrs_align _ _ _ _ hcollect halign
    split at h
    · simp at h
    · simp at h
    · rename_i st hloop
      rw [Option.some.injEq, Except.ok.injEq] at h
      rw [← h]
      exact engineLoop_align _ _ _ _ hloop h1

/-- Witness for C7 at a concrete input that exercises pre-pass and engine. -/
theorem c7_label_column_alignment_witness :
    (SynthResult.rust_angles
        ⟨[(Gate.CX, [0, 1]), (Gate.Phase "0.5", [1])],
          [[true, false], [true, true]], [], []⟩).length =
      (SynthResult.s_cpy
        ⟨[(Gate.CX, [0, 1]), (Gate.Phase "0.5", [1])],
          [[true, false], [true, true]], [], []⟩).length :=
  c7_label_column_alignment.2.2 40 [[true], [true]] ["0.5"]
    ⟨[(Gate.CX, [0, 1]), (Gate.Phase "0.5", [1])],
      [[true, false], [true, true]], [], []⟩ (by decide) (by decide)

/-! ## Parity-tracking invariant (claim C2) -/

/-- Replay distributes over concatenation. -/
theorem replayFrom_append (st : List (List Bool)) (l1 l2 : List Instruction) :
    replayFrom st (l1 ++ l2) = replayFrom (replayFrom st l1) l2 :=
  List.foldl_append _ _ _ _

/-- Non-CNOT instructions do not move the replayed state. -/
theorem replayFrom_of_ne_cx (st : List (List Bool)) :
    ∀ (l : List Instruction), (∀ i ∈ l, i.1 ≠ Gate.CX) → replayFrom st l = st
  | [], _ => rfl
  | i :: l, h => by
    have hi : i.1 ≠ Gate.CX := h i (List.mem_cons_self i l)
    have hstep : replayStepFn st i = st := by
      unfold replayStepFn
      match i, hi with
      | (Gate.T, _), _ => rfl
      | (Gate.Tdg, _), _ => rfl
      | (Gate.SGate, _), _ => rfl
      | (Gate.Sdg, _), _ => rfl
      | (Gate.Z, _), _ => rfl
      | (Gate.Phase s, _), _ => rfl
      | (Gate.CX, qs), hi => exact absurd rfl hi
    show replayFrom (replayStepFn st i) l = st
    rw [hstep]
    exact replayFrom_of_ne_cx st l (fun j hj => h j (List.mem_cons_of_mem i hj))

/-- The engine's gate mapping never yields a CNOT. -/
theorem engineGate_ne_cx (s : String) (g : Gate) (h : engineGate s = .ok g) :
    g ≠ Gate.CX := by
  intro hg
  subst hg
  unfold engineGate at h
  repeat' split at h
  all_goals simp at h

/-- The pre-pass never emits a CNOT. -/
theorem nextInstr_ne_cx :
    ∀ (gas : ℕ) (st : PrePass) (i : Instruction) (st' : PrePass),
      nextInstr gas st = some (.ok (some i, st')) → i.1 ≠ Gate.CX := by
  intro gas
  induction gas with
  | zero =>
    intro st i st' h
    simp [nextInstr] at h
  | succ gas ih =>
    intro st i st' h
    simp only [nextInstr] at h
    split at h
    · simp at h
    · split at h
      case isTrue hlt =>
        by_cases hic :
            List.get st.s_cpy ⟨st.index, hlt⟩ = st.state_cpy.getD st.qubit_idx []
        · rw [if_pos hic] at h
          split at h
          · simp at h
          · split at h <;> (try split at h) <;>
              (try (rw [Option.some.injEq, Except.ok.injEq, Prod.mk.injEq,
                Option.some.injEq] at h)) <;>
              first
                | (rw [← h.1]; simp)
                | simp at h
        · rw [if_neg hic] at h
          exact ih _ _ _ h
      case isFalse =>
        exact ih _ _ _ h

/-- All instructions collected by the pre-pass are non-CNOT. -/
theorem collectInstrs_ne_cx :
    ∀ (gas : ℕ) (st : PrePass) (ins : List Instruction) (st' : PrePass),
      collectInstrs gas st = some (.ok (ins, st')) → ∀ i ∈ ins, i.1 ≠ Gate.CX := by
  intro gas
  induction gas with
  | zero =>
    intro st ins st' h
    simp [collectInstrs] at h
  | succ gas ih =>
    intro st ins st' h
    rw [collectInstrs] at h
    split at h
    · exact absurd h (by simp)
    · exact absurd h (by simp)
    · rw [Option.some.injEq, Except.ok.injEq, Prod.mk.injEq] at h
      rw [← h.1]
      intro i hi
      exact absurd hi (by simp)
    · rename_i i st1 heq
      split at h
      · exact absurd h (by simp)
      · exact absurd h (by simp)
      · rename_i rest stf heq2
        rw [Option.some.injEq, Except.ok.injEq, Prod.mk.injEq] at h
        rw [← h.1]
        intro j hj
        rcases List.mem_cons.mp hj with hj | hj
        · rw [hj]
          exact nextInstr_ne_cx _ _ _ _ heq
        · exact ih _ _ _ heq2 j hj

/-- The re-check only appends non-CNOT instructions to its accumulator. -/
theorem recheck_ne_cx :
    ∀ (gas ep : ℕ) (target : List Bool) (index : ℕ) (swtch : Bool) (sc : Mat)
      (ang : List String) (acc : List Instruction)
      (out : Mat × List String × List Instruction),
      recheck ep target gas index swtch sc ang acc = some (.ok out) →
      (∀ i ∈ acc, i.1 ≠ Gate.CX) →
      ∀ i ∈ out.2.2, i.1 ≠ Gate.CX := by
  intro gas
  induction gas with
  | zero =>
    intro ep target index swtch sc ang acc out h
    simp [recheck] at h
  | succ gas ih =>
    intro ep target index swtch sc ang acc out h hacc
    simp only [recheck] at h
    split at h
    case isFalse =>
      rw [Option.some.injEq, Except.ok.injEq] at h
      rw [← h]
      exact hacc
    case isTrue hlt =>
      split at h
      · split at h
        · simp at h
        · rename_i gate hget
          split at h
          · simp at h
          · rename_i g hgate
            have hacc' : ∀ i ∈ acc ++ [(g, [ep])], i.1 ≠ Gate.CX := by
              intro i hi
              rcases List.mem_append.mp hi with hi | hi
              · exact hacc i hi
              · rw [List.mem_singleton.mp hi]
                exact engineGate_ne_cx _ _ hgate
            split at h
            · rw [Option.some.injEq, Except.ok.injEq] at h
              rw [← h]
              exact hacc'
            · split at h
              · exact ih _ _ _ _ _ _ _ _ h hacc'
              · split at h
                · exact ih _ _ _ _ _ _ _ _ h hacc'
                · exact ih _ _ _ _ _ _ _ _ h hacc'
      · split at h
        · exact ih _ _ _ _ _ _ _ _ h hacc
        · exact ih _ _ _ _ _ _ _ _ h hacc

/-- One elimination pass keeps `state` equal to the replay of the emitted
CNOTs: every CNOT emission is paired with exactly the matching row-XOR on
`state`, and the re-check emissions in between are phase gates only. -/
theorem elimFor_replay :
    ∀ (js : List ℕ) (n fuel : ℕ) (cond : Bool) (cur : WItem) (st : EngSt)
      (out : Bool × WItem × EngSt),
      elimFor n fuel js cond cur st = some (.ok out) →
      replayFrom (identityMat n) st.instrs = st.state →
      replayFrom (identityMat n) out.2.2.instrs = out.2.2.state := by
  intro js
  induction js with
  | nil =>
    intro n fuel cond cur st out h hrep
    simp only [elimFor, Option.some.injEq, Except.ok.injEq] at h
    rw [← h]
    exact hrep
  | cons j js ih =>
    intro n fuel cond cur st out h hrep
    simp only [elimFor] at h
    split at h
    · split at h
      · simp at h
      · rename_i state' hstate
        split at h
        · simp at h
        · simp at h
        · rename_i sc' ang' emitted hrecheck
          split at h
          · simp at h
          · rename_i cur' hlast
            refine ih _ _ _ _ _ _ h ?_
            show replayFrom (identityMat n)
                (st.instrs ++ [(Gate.CX, [j, cur.2.2])] ++ emitted) = state'
            rw [replayFrom_append, replayFrom_append, hrep]
            have h1 : replayFrom st.state [(Gate.CX, [j, cur.2.2])] = state' := by
              show (stateXor st.state cur.2.2 j).getD st.state = state'
              rw [hstate]
              rfl
            rw [h1]
            exact replayFrom_of_ne_cx state' emitted
              (recheck_ne_cx _ _ _ _ _ _ _ _ _ hrecheck (by intro i hi; simp at hi))
    · exact ih _ _ _ _ _ _ h hrep

/-- The row-elimination fixpoint preserves the replay invariant. -/
theorem elimWhile_replay :
    ∀ (fuel n : ℕ) (cur : WItem) (st : EngSt) (out : WItem × EngSt),
      elimWhile n fuel cur st = some (.ok out) →
      replayFrom (identityMat n) st.instrs = st.state →
      replayFrom (identityMat n) out.2.instrs = out.2.state := by
  intro fuel
  induction fuel with
  | zero =>
    intro n cur st out h
    simp [elimWhile] at h
  | succ fuel ih =>
    intro n cur st out h hrep
    simp only [elimWhile] at h
    split at h
    · simp at h
    · simp at h
    · rename_i cur' st' heq
      rw [Option.some.injEq, Except.ok.injEq] at h
      rw [← h]
      exact elimFor_replay _ _ _ _ _ _ _ heq hrep
    · rename_i cur' st' heq
      exact ih _ _ _ _ h (elimFor_replay _ _ _ _ _ _ _ heq hrep)

/-- The work-queue loop preserves the replay invariant. -/
theorem engineLoop_replay :
    ∀ (fuel n : ℕ) (st : EngSt) (out : EngSt),
      engineLoop n fuel st = some (.ok out) →
      replayFrom (identityMat n) st.instrs = st.state →
      replayFrom (identityMat n) out.instrs = out.state := by
  intro fuel
  induction fuel with
  | zero =>
    intro n st out h hrep
    rw [engineLoop] at h
    split at h
    · rw [Option.some.injEq, Except.ok.injEq] at h
      rw [← h]
      exact hrep
    · simp at h
  | succ fuel ih =>
    intro n st out h hrep
    rw [engineLoop] at h
    split at h
    · rw [Option.some.injEq, Except.ok.injEq] at h
      rw [← h]
      exact hrep
    · simp only at h
      split at h
      · exact ih _ _ _ h hrep
      · split at h
        · simp at h
        · simp at h
        · rename_i cur2 st2 hfix
          have hrep2 : replayFrom (identityMat n) st2.instrs = st2.state := by
            split at hfix
            · exact elimWhile_replay _ _ _ _ _ hfix hrep
            · rw [Option.some.injEq, Except.ok.injEq, Prod.mk.injEq] at hfix
              rw [← hfix.2]
              exact hrep
          split at h
          · exact ih _ _ _ h hrep2
          · split at h
            · simp at h
            · split at h
              · simp at h
              · exact ih _ _ _ h hrep2

/-- C2: for every run that produces a result, replaying the emitted CNOTs in
order as row-XOR updates from the identity yields exactly the final `state`
matrix handed to the residual linear synthesizer: every CNOT emission is
paired with exactly one matching state row-XOR, and no row-XOR happens
without a CNOT emission. -/
theorem c2_parity_tracking :
    ∀ (fuel : ℕ) (cnots : List (List Bool)) (angles : List String) (r : SynthResult),
      synthRun fuel cnots angles = some (.ok r) →
      replayCX cnots.length r.instrs = r.state := by
  intro fuel cnots angles r h
  simp only [synthRun] at h
  split at h
  · simp at h
  · simp at h
  · rename_i ins pp hcollect
    have hne := collectInstrs_ne_cx _ _ _ _ hcollect
    have hbase : replayFrom (identityMat cnots.length) ins = identityMat cnots.length :=
      replayFrom_of_ne_cx _ _ hne
    split at h
    · simp at h
    · simp at h
    · rename_i st hloop
      rw [Option.some.injEq, Except.ok.injEq] at h
      rw [← h]
      exact engineLoop_replay _ _ _ _ hloop hbase

/-- Witness for C2 at a concrete input with one CNOT and one phase gate. -/
theorem c2_parity_tracking_witness :
    replayCX 2 [(Gate.CX, [0, 1]), (Gate.Phase "0.5", [1])] =
      [[true, false], [true, true]] :=
  c2_parity_tracking 40 [[true], [true]] ["0.5"]
    ⟨[(Gate.CX, [0, 1]), (Gate.Phase "0.5", [1])],
      [[true, false], [true, true]], [], []⟩ (by decide)

/-! ## Safety of the partition-engine loop (claim C10) -/

/-- The deduplication only keeps elements of its input. -/
theorem dedupFirst_subset :
    ∀ (l acc : List WItem) (x : WItem),
      x ∈ l.foldl (fun acc d => if acc.contains d then acc else acc ++ [d]) acc →
      x ∈ acc ∨ x ∈ l
  | [], acc, x, h => Or.inl h
  | d :: l, acc, x, h => by
    rcases dedupFirst_subset l (if acc.contains d then acc else acc ++ [d]) x h with h1 | h1
    · split at h1
      · exact Or.inl h1
      · rcases List.mem_append.mp h1 with h2 | h2
        · exact Or.inl h2
        · exact Or.inr (List.mem_cons.mpr (Or.inl (List.mem_singleton.mp h2)))
    · exact Or.inr (List.mem_cons.mpr (Or.inr h1))

/-- The deduplication fold never shrinks the accumulator. -/
theorem dedupFirst_length_ge :
    ∀ (l acc : List WItem),
      acc.length ≤
        (l.foldl (fun acc d => if acc.contains d then acc else acc ++ [d]) acc).length
  | [], acc => le_refl _
  | d :: l, acc => by
    refine le_trans ?_ (dedupFirst_length_ge l (if acc.contains d then acc else acc ++ [d]))
    split
    · exact le_refl _
    · simp

/-- Deduplicating a non-empty queue yields a non-empty queue. -/
theorem dedupFirst_ne_nil (l : List WItem) (h : l ≠ []) : dedupFirst l ≠ [] := by
  match l, h with
  | d :: l, _ =>
    intro hc
    have h1 := dedupFirst_length_ge l [d]
    have h2 : dedupFirst (d :: l) =
        List.foldl (fun acc d => if acc.contains d then acc else acc ++ [d]) [d] l := rfl
    rw [h2] at hc
    rw [hc] at h1
    simp at h1

/-- A successful `Option`-`mapM` preserves the length. -/
theorem mapM_length :
    ∀ (I : List ℕ) (f : ℕ → Option ℕ) (L : List ℕ),
      I.mapM f = some L → L.length = I.length
  | [], _, L, h => by
    have h' : (some [] : Option (List ℕ)) = some L := h
    rw [← Option.some.inj h']
  | a :: as, f, L, h => by
    simp only [List.mapM_cons] at h
    cases hf : f a with
    | none => rw [hf] at h; exact absurd h (by simp)
    | some b =>
      rw [hf] at h
      cases hm : as.mapM f with
      | none => rw [hm] at h; exact absurd h (by simp)
      | some bs =>
        rw [hm] at h
        have hL : L = b :: bs := by
          have h2 : (some (b :: bs) : Option (List ℕ)) = some L := h
          exact (Option.some.inj h2).symm
        rw [hL]
        simp only [List.length_cons]
        rw [mapM_length as f bs hm]

/-- Pivot selection cannot hit the `unwrap` panic when `I` is non-empty. -/
theorem pivotSelect_no_guard (n : ℕ) (m : Mat) (I : List ℕ) (hne : I ≠ []) :
    pivotSelect n m I ≠ .error .guardFail := by
  intro h
  simp only [pivotSelect] at h
  split at h
  · simp at h
  · rename_i maxes2 hmapM
    split at h
    · rename_i hargmax
      have hlen := mapM_length _ _ _ hmapM
      match maxes2, hargmax, hlen with
      | [], _, hlen =>
        exact hne (List.length_eq_zero.mp (by rw [← hlen]; rfl))
      | v :: rest, hargmax, _ =>
        exact absurd hargmax (by simp [argmaxLast])
    · simp at h

/-- A successfully selected pivot is one of the eligible rows. -/
theorem pivotSelect_mem (n : ℕ) (m : Mat) (I : List ℕ) (p : ℕ) (hne : I ≠ [])
    (h : pivotSelect n m I = .ok p) : p ∈ I := by
  simp only [pivotSelect] at h
  split at h
  · simp at h
  · rename_i maxes2 hmapM
    split at h
    · simp at h
    · rename_i idx hargmax
      have hlen := mapM_length _ _ _ hmapM
      have hmaxne : maxes2 ≠ [] := by
        intro hc
        rw [hc] at hlen
        exact hne (List.length_eq_zero.mp hlen.symm)
      obtain ⟨k, hk, hsome, _, _⟩ := argmaxLast_spec maxes2 hmaxne
      rw [hargmax, Option.some.injEq] at hsome
      have hidx : idx < I.length := by rw [← hlen, hsome]; exact hk
      rw [Except.ok.injEq] at h
      rw [← h]
      rw [List.getD_eq_getElem?_getD, List.getElem?_eq_getElem hidx]
      exact List.getElem_mem hidx

/-- The engine's gate mapping fails only with a parse error. -/
theorem engineGate_no_guard (s : String) (e : Err) (h : engineGate s = .error e) :
    e = .parseFail s := by
  unfold engineGate at h
  repeat' split at h
  all_goals simp_all

/-- The re-check loop never raises the engine-loop `unwrap` panic. -/
theorem recheck_no_guard :
    ∀ (gas ep : ℕ) (target : List Bool) (index : ℕ) (swtch : Bool) (sc : Mat)
      (ang : List String) (acc : List Instruction),
      recheck ep target gas index swtch sc ang acc ≠ some (.error .guardFail) := by
  intro gas
  induction gas with
  | zero =>
    intro ep target index swtch sc ang acc h
    simp [recheck] at h
  | succ gas ih =>
    intro ep target index swtch sc ang acc h
    simp only [recheck] at h
    split at h
    case isFalse => simp at h
    case isTrue hlt =>
      split at h
      · split at h
        · simp at h
        · rename_i gate hget
          split at h
          · rename_i e hgate
            rw [engineGate_no_guard _ _ hgate] at h
            simp at h
          · split at h
            · simp at h
            · split at h
              · exact ih _ _ _ _ _ _ _ h
              · split at h
                · exact ih _ _ _ _ _ _ _ h
                · exact ih _ _ _ _ _ _ _ h
      · split at h
        · exact ih _ _ _ _ _ _ _ h
        · exact ih _ _ _ _ _ _ _ h

/-- The pre-pass iterator never raises the engine-loop `unwrap` panic. -/
theorem nextInstr_no_guard :
    ∀ (gas : ℕ) (st : PrePass), nextInstr gas st ≠ some (.error .guardFail) := by
  intro gas
  induction gas with
  | zero =>
    intro st h
    simp [nextInstr] at h
  | succ gas ih =>
    intro st h
    simp only [nextInstr] at h
    split at h
    · simp at h
    · split at h
      case isTrue hlt =>
        by_cases hic :
            List.get st.s_cpy ⟨st.index, hlt⟩ = st.state_cpy.getD st.qubit_idx []
        · rw [if_pos hic] at h
          split at h
          · simp at h
          · split at h <;> (try split at h) <;> simp at h
        · rw [if_neg hic] at h
          exact ih _ h
      case isFalse =>
        exact ih _ h

/-- Draining the pre-pass never raises the engine-loop `unwrap` panic. -/
theorem collectInstrs_no_guard :
    ∀ (gas : ℕ) (st : PrePass), collectInstrs gas st ≠ some (.error .guardFail) := by
  intro gas
  induction gas with
  | zero =>
    intro st h
    simp [collectInstrs] at h
  | succ gas ih =>
    intro st h
    rw [collectInstrs] at h
    split at h
    · simp at h
    · rename_i e heq
      rw [Option.some.injEq, Except.error.injEq] at h
      rw [h] at heq
      exact nextInstr_no_guard _ _ heq
    · simp at h
    · split at h
      · simp at h
      · rename_i e heq2
        rw [Option.some.injEq, Except.error.injEq] at h
        rw [h] at heq2
        exact ih _ heq2
      · simp at h

/-- One elimination pass never raises the engine-loop `unwrap` panic: the
re-pushed queue is non-empty after deduplication, so the pop succeeds. -/
theorem elimFor_no_guard :
    ∀ (js : List ℕ) (n fuel : ℕ) (cond : Bool) (cur : WItem) (st : EngSt),
      elimFor n fuel js cond cur st ≠ some (.error .guardFail) := by
  intro js
  induction js with
  | nil =>
    intro n fuel cond cur st h
    simp [elimFor] at h
  | cons j js ih =>
    intro n fuel cond cur st h
    simp only [elimFor] at h
    split at h
    · split at h
      · simp at h
      · split at h
        · simp at h
        · rename_i e hrecheck
          rw [Option.some.injEq, Except.error.injEq] at h
          rw [h] at hrecheck
          exact recheck_no_guard _ _ _ _ _ _ _ _ hrecheck
        · split at h
          · rename_i hlast
            rw [List.getLast?_eq_none_iff, List.map_eq_nil_iff] at hlast
            exact dedupFirst_ne_nil _ (by simp) hlast
          · exact ih _ _ _ _ _ h
    · exact ih _ _ _ _ _ h

/-- One elimination pass preserves the structural invariant of every item:
pushing, deduplicating, row-updating and popping never touch the eligible-row
lists or excluded rows. -/
theorem elimFor_inv :
    ∀ (js : List ℕ) (n fuel : ℕ) (cond : Bool) (cur : WItem) (st : EngSt)
      (out : Bool × WItem × EngSt),
      elimFor n fuel js cond cur st = some (.ok out) →
      QInv n st → ItemInv n cur →
      QInv n out.2.2 ∧ ItemInv n out.2.1 := by
  intro js
  induction js with
  | nil =>
    intro n fuel cond cur st out h hq hc
    simp only [elimFor, Option.some.injEq, Except.ok.injEq] at h
    rw [← h]
    exact ⟨hq, hc⟩
  | cons j js ih =>
    intro n fuel cond cur st out h hq hc
    simp only [elimFor] at h
    split at h
    · split at h
      · simp at h
      · split at h
        · simp at h
        · simp at h
        · rename_i state' hstate sc' ang' emitted hrecheck
          split at h
          · simp at h
          · rename_i cur' hlast
            have hq3 : ∀ it ∈ (dedupFirst (st.q ++ [cur])).map (fun it =>
                if matIsEmpty n it.1 then it
                else (transvect j cur.2.2 it.1, it.2.1, it.2.2)), ItemInv n it := by
              intro it hit
              obtain ⟨it0, hit0, hmap⟩ := List.mem_map.mp hit
              have hit0' : it0 ∈ st.q ++ [cur] := by
                rcases dedupFirst_subset (st.q ++ [cur]) [] it0 hit0 with hx | hx
                · exact absurd hx (by simp)
                · exact hx
              have hinv0 : ItemInv n it0 := by
                rcases List.mem_append.mp hit0' with hx | hx
                · exact hq it0 hx
                · rw [List.mem_singleton.mp hx]
                  exact hc
              rw [← hmap]
              split
              · exact hinv0
              · exact hinv0
            refine ih _ _ _ _ _ _ h ?_ ?_
            · intro it hit
              exact hq3 it (List.dropLast_subset _ hit)
            · exact hq3 cur' (List.mem_of_getLast?_eq_some hlast)
    · exact ih _ _ _ _ _ _ h hq hc

/-- A pass entered with `condition = true` reports `condition = true`. -/
theorem elimFor_true_stays :
    ∀ (js : List ℕ) (n fuel : ℕ) (cur : WItem) (st : EngSt)
      (out : Bool × WItem × EngSt),
      elimFor n fuel js true cur st = some (.ok out) → out.1 = true := by
  intro js
  induction js with
  | nil =>
    intro n fuel cur st out h
    simp only [elimFor, Option.some.injEq, Except.ok.injEq] at h
    rw [← h]
  | cons j js ih =>
    intro n fuel cur st out h
    simp only [elimFor] at h
    split at h
    · split at h
      · simp at h
      · split at h
        · simp at h
        · simp at h
        · split at h
          · simp at h
          · exact ih _ _ _ _ _ h
    · exact ih _ _ _ _ _ h

/-- A pass that reports `condition = false` made no elimination: the current
item and the state are unchanged and no remaining row index was eliminable. -/
theorem elimFor_false_exit :
    ∀ (js : List ℕ) (n fuel : ℕ) (cur : WItem) (st : EngSt) (cur' : WItem)
      (st' : EngSt),
      elimFor n fuel js false cur st = some (.ok (false, cur', st')) →
      cur' = cur ∧ st' = st ∧
        ∀ j ∈ js, ¬(j ≠ cur.2.2 ∧ rowAllOnes cur.1 j = true) := by
  intro js
  induction js with
  | nil =>
    intro n fuel cur st cur' st' h
    simp only [elimFor, Option.some.injEq, Except.ok.injEq, Prod.mk.injEq] at h
    exact ⟨h.2.1.symm, h.2.2.symm, by intro j hj; simp at hj⟩
  | cons j js ih =>
    intro n fuel cur st cur' st' h
    simp only [elimFor] at h
    split at h
    case isTrue hguard =>
      split at h
      · simp at h
      · split at h
        · simp at h
        · simp at h
        · split at h
          · simp at h
          · have := elimFor_true_stays _ _ _ _ _ _ h
            simp at this
    case isFalse hguard =>
      obtain ⟨h1, h2, h3⟩ := ih _ _ _ _ _ _ h
      refine ⟨h1, h2, ?_⟩
      intro k hk
      rcases List.mem_cons.mp hk with hk | hk
      · rw [hk]
        exact hguard
      · exact h3 k hk

/-- The fixpoint never raises the engine-loop `unwrap` panic. -/
theorem elimWhile_no_guard :
    ∀ (fuel n : ℕ) (cur : WItem) (st : EngSt),
      elimWhile n fuel cur st ≠ some (.error .guardFail) := by
  intro fuel
  induction fuel with
  | zero =>
    intro n cur st h
    simp [elimWhile] at h
  | succ fuel ih =>
    intro n cur st h
    simp only [elimWhile] at h
    split at h
    · simp at h
    · rename_i e heq
      rw [Option.some.injEq, Except.error.injEq] at h
      rw [h] at heq
      exact elimFor_no_guard _ _ _ _ _ _ heq
    · simp at h
    · exact ih _ _ _ h

/-- The fixpoint preserves the structural invariant. -/
theorem elimWhile_inv :
    ∀ (fuel n : ℕ) (cur : WItem) (st : EngSt) (out : WItem × EngSt),
      elimWhile n fuel cur st = some (.ok out) →
      QInv n st → ItemInv n cur →
      QInv n out.2 ∧ ItemInv n out.1 := by
  intro fuel
  induction fuel with
  | zero =>
    intro n cur st out h
    simp [elimWhile] at h
  | succ fuel ih =>
    intro n cur st out h hq hc
    simp only [elimWhile] at h
    split at h
    · simp at h
    · simp at h
    · rename_i cur' st' heq
      rw [Option.some.injEq, Except.ok.injEq] at h
      obtain ⟨h1, h2⟩ := elimFor_inv _ _ _ _ _ _ _ heq hq hc
      rw [← h]
      exact ⟨h1, h2⟩
    · rename_i cur' st' heq
      obtain ⟨h1, h2⟩ := elimFor_inv _ _ _ _ _ _ _ heq hq hc
      exact ih _ _ _ _ h h1 h2

/-- When the fixpoint exits, no row of the final current item is eliminable. -/
theorem elimWhile_exit :
    ∀ (fuel n : ℕ) (cur : WItem) (st : EngSt) (cur2 : WItem) (st2 : EngSt),
      elimWhile n fuel cur st = some (.ok (cur2, st2)) →
      ∀ j < n, ¬(j ≠ cur2.2.2 ∧ rowAllOnes cur2.1 j = true) := by
  intro fuel
  induction fuel with
  | zero =>
    intro n cur st cur2 st2 h
    simp [elimWhile] at h
  | succ fuel ih =>
    intro n cur st cur2 st2 h
    simp only [elimWhile] at h
    split at h
    · simp at h
    · simp at h
    · rename_i cur' st' heq
      rw [Option.some.injEq, Except.ok.injEq, Prod.mk.injEq] at h
      obtain ⟨h1, _, h3⟩ := elimFor_false_exit _ _ _ _ _ _ _ heq
      intro j hj
      rw [← h.1, h1]
      exact h3 j (List.mem_range.mpr hj)
    · rename_i cur' st' heq
      exact ih _ _ _ _ _ h

/-- Unfolding `matIsEmpty n m = false`. -/
theorem matIsEmpty_false (n : ℕ) (m : Mat) (h : matIsEmpty n m = false) :
    n ≠ 0 ∧ m ≠ [] := by
  unfold matIsEmpty at h
  constructor
  · intro hc
    rw [hc] at h
    simp at h
  · intro hc
    rw [hc] at h
    simp at h

/-- The work-queue loop never raises any of its `unwrap`/indexing panics
(queue pops, the pivot argmax, `column(0)`), provided every queued item is
structurally sound. -/
theorem engineLoop_no_guard :
    ∀ (fuel n : ℕ) (st : EngSt), QInv n st →
      engineLoop n fuel st ≠ some (.error .guardFail) := by
  intro fuel
  induction fuel with
  | zero =>
    intro n st hq h
    rw [engineLoop] at h
    split at h
    · simp at h
    · simp at h
  | succ fuel ih =>
    intro n st hq h
    rw [engineLoop] at h
    split at h
    · simp at h
    · rename_i cur hlast
      simp only at h
      have hcur : ItemInv n cur := hq cur (List.mem_of_getLast?_eq_some hlast)
      have hq0 : QInv n { st with q := st.q.dropLast } := fun it hit =>
        hq it (List.dropLast_subset _ hit)
      split at h
      · exact ih _ _ hq0 h
      case isFalse hnemp =>
        obtain ⟨hn0, hcne⟩ := matIsEmpty_false n cur.1 (Bool.eq_false_iff.mpr hnemp)
        split at h
        · simp at h
        · rename_i e hfix
          rw [Option.some.injEq, Except.error.injEq] at h
          rw [h] at hfix
          split at hfix
          · exact elimWhile_no_guard _ _ _ _ hfix
          · simp at hfix
        · rename_i cur2 st2 hfix
          have hinv2 : QInv n st2 ∧ ItemInv n cur2 := by
            split at hfix
            · have := elimWhile_inv _ _ _ _ _ hfix hq0 hcur
              exact ⟨this.1, this.2⟩
            · rw [Option.some.injEq, Except.ok.injEq, Prod.mk.injEq] at hfix
              constructor
              · rw [← hfix.2]
                exact hq0
              · rw [← hfix.1]
                exact hcur
          split at h
          · exact ih _ _ hinv2.1 h
          case isFalse hIne =>
            have hI2 : cur2.2.1 ≠ [] := by
              intro hc
              exact hIne (by rw [hc]; rfl)
            split at h
            · rename_i e hpiv
              rw [Option.some.injEq, Except.error.injEq] at h
              rw [h] at hpiv
              exact pivotSelect_no_guard _ _ _ hI2 hpiv
            · rename_i pj hpiv
              split at h
              · rename_i hmat
                split at hfix
                case isTrue hep =>
                  have hexit := elimWhile_exit _ _ _ _ _ _ hfix
                  obtain ⟨i0, hi0⟩ := List.exists_mem_of_ne_nil cur2.2.1 hI2
                  have hi0n : i0 < n := hinv2.2.1 i0 hi0
                  have hno := hexit i0 hi0n
                  rw [hmat] at hno
                  have hall : rowAllOnes ([] : Mat) i0 = true := rfl
                  have heq : i0 = cur2.2.2 := by
                    by_contra hne
                    exact hno ⟨hne, hall⟩
                  exact hinv2.2.2 (heq ▸ hi0)
                case isFalse hep =>
                  rw [Option.some.injEq, Except.ok.injEq, Prod.mk.injEq] at hfix
                  refine hcne ?_
                  rw [← hfix.1] at hmat
                  exact hmat
              · rename_i hd tl hmat
                refine ih _ _ ?_ h
                intro it hit
                rcases List.mem_append.mp hit with hx | hx
                · exact hinv2.1 it hx
                · have hni : ∀ i ∈ cur2.2.1.filter (fun x => x ≠ pj), i < n := by
                    intro i hi
                    exact hinv2.2.1 i (List.mem_of_mem_filter hi)
                  have hpjni : pj ∉ cur2.2.1.filter (fun x => x ≠ pj) := by
                    intro hc
                    have := List.of_mem_filter hc
                    simp at this
                  have hepni : cur2.2.2 ∉ cur2.2.1.filter (fun x => x ≠ pj) := by
                    intro hc
                    exact hinv2.2.2 (List.mem_of_mem_filter hc)
                  rcases List.mem_cons.mp hx with hx1 | hx1
                  · rw [hx1]
                    split
                    · exact ⟨hni, hpjni⟩
                    · exact ⟨hni, hepni⟩
                  · rw [List.mem_singleton.mp hx1]
                    exact ⟨hni, hepni⟩

/-- C10: none of the guarded `unwrap`/indexing operations of the
partition-engine loop can fail on any input: the initial pop is guarded by the
emptiness check, the pop after re-pushing always finds a non-empty
deduplicated queue, the pivot argmax is only taken for a non-empty eligible
set, and `column(0)` is only read on a matrix with at least one column. -/
theorem c10_engine_unwraps_safe :
    ∀ (fuel : ℕ) (cnots : List (List Bool)) (angles : List String),
      synthRun fuel cnots angles ≠ some (.error .guardFail) := by
  intro fuel cnots angles h
  simp only [synthRun] at h
  split at h
  · simp at h
  · rename_i e heq
    rw [Option.some.injEq, Except.error.injEq] at h
    rw [h] at heq
    exact collectInstrs_no_guard _ _ heq
  · rename_i ins pp hcollect
    split at h
    · simp at h
    · rename_i e heq
      rw [Option.some.injEq, Except.error.injEq] at h
      rw [h] at heq
      refine engineLoop_no_guard _ _ _ ?_ heq
      intro it hit
      rw [List.mem_singleton.mp hit]
      constructor
      · intro i hi
        simp only [initialWorkItem] at hi
        exact List.mem_range.mp hi
      · simp [initialWorkItem]
    · simp at h

/-! ## Termination of the partition engine (claim C9): basic row lemmas -/

/-- Writing back an entry's own value is the identity. -/
theorem set_getD_self (c : List Bool) (j : ℕ) : c.set j (c.getD j false) = c := by
  by_cases hj : j < c.length
  · apply List.ext_getElem?
    intro i
    rw [List.getElem?_set]
    by_cases hij : j = i
    · rw [if_pos hij, if_pos hj, ← hij, List.getD_eq_getElem?_getD,
        List.getElem?_eq_getElem hj]
      rfl
    · rw [if_neg hij]
  · exact List.set_eq_of_length_le (Nat.le_of_not_lt hj)

/-- The row operation does not change the number of columns. -/
theorem transvect_length (j ep : ℕ) (m : Mat) : (transvect j ep m).length = m.length := by
  simp [transvect]

/-- The row operation is an involution when source and target rows differ. -/
theorem transvect_transvect (j ep : ℕ) (hne : j ≠ ep) (m : Mat) :
    transvect j ep (transvect j ep m) = m := by
  simp only [transvect, List.map_map]
  conv_rhs => rw [← List.map_id m]
  refine List.map_congr_left ?_
  intro c _
  simp only [Function.comp, id]
  by_cases hj : j < c.length
  · have hgj : (c.set j (xor (c.getD j false) (c.getD ep false))).getD j false
        = xor (c.getD j false) (c.getD ep false) := by
      rw [List.getD_eq_getElem?_getD, List.getElem?_set_self hj]
      rfl
    have hgep : (c.set j (xor (c.getD j false) (c.getD ep false))).getD ep false
        = c.getD ep false := by
      rw [List.getD_eq_getElem?_getD, List.getElem?_set_ne hne, ← List.getD_eq_getElem?_getD]
    rw [hgj, hgep, List.set_set]
    have hx : xor (xor (c.getD j false) (c.getD ep false)) (c.getD ep false)
        = c.getD j false := by
      cases c.getD j false <;> cases c.getD ep false <;> rfl
    rw [hx, set_getD_self]
  · have h1 : c.set j (xor (c.getD j false) (c.getD ep false)) = c :=
      List.set_eq_of_length_le (Nat.le_of_not_lt hj)
    rw [h1]
    exact h1

/-- Reading a row other than the targeted one through the row operation. -/
theorem getD_transvect_ne (j ep k : ℕ) (h : k ≠ j) (c : List Bool) :
    (c.set j (xor (c.getD j false) (c.getD ep false))).getD k false = c.getD k false := by
  rw [List.getD_eq_getElem?_getD, List.getElem?_set_ne (Ne.symm h), ← List.getD_eq_getElem?_getD]

/-- The row operation only changes the targeted row. -/
theorem matRow_transvect_ne (j ep k : ℕ) (h : k ≠ j) (m : Mat) :
    matRow (transvect j ep m) k = matRow m k := by
  simp only [matRow, transvect, List.map_map]
  refine List.map_congr_left ?_
  intro c _
  simp only [Function.comp]
  exact getD_transvect_ne j ep k h c

/-- `List.all` of a mapped list, for an arbitrary map. -/
theorem all_map_general {α β : Type} (f : α → β) (p : β → Bool) :
    ∀ l : List α, (l.map f).all p = l.all (fun a => p (f a))
  | [] => rfl
  | a :: l => by
    simp only [List.map_cons, List.all_cons, all_map_general f p l]

/-- `rowAllOnes` only depends on the row it reads. -/
theorem rowAllOnes_congr {m1 m2 : Mat} {k : ℕ} (h : matRow m1 k = matRow m2 k) :
    rowAllOnes m1 k = rowAllOnes m2 k := by
  have e : ∀ m : Mat, rowAllOnes m k = (matRow m k).all (fun x => x) := by
    intro m
    rw [matRow, all_map_general]
    rfl
  rw [e, e, h]

/-- `rowAllZero` only depends on the row it reads. -/
theorem rowAllZero_congr {m1 m2 : Mat} {k : ℕ} (h : matRow m1 k = matRow m2 k) :
    rowAllZero m1 k = rowAllZero m2 k := by
  have e : ∀ m : Mat, rowAllZero m k = (matRow m k).all (fun x => x = false) := by
    intro m
    rw [matRow, all_map_general]
    rfl
  rw [e, e, h]

/-- Eliminating an all-ones row against an all-ones excluded row zeroes it. -/
theorem rowAllZero_transvect_self (j ep : ℕ) (m : Mat)
    (h1 : rowAllOnes m j = true) (h2 : rowAllOnes m ep = true) :
    rowAllZero (transvect j ep m) j = true := by
  rw [rowAllZero, List.all_eq_true]
  intro c' hc'
  obtain ⟨c, hc, rfl⟩ := List.mem_map.mp hc'
  rw [rowAllOnes, List.all_eq_true] at h1 h2
  have ha := h1 c hc
  have hb := h2 c hc
  have hjlen : j < c.length := by
    by_contra hge
    rw [List.getD_eq_getElem?_getD, List.getElem?_eq_none (Nat.le_of_not_lt hge)] at ha
    simp at ha
  rw [decide_eq_true_eq]
  rw [List.getD_eq_getElem?_getD, List.getElem?_set_self hjlen]
  simp only [Option.getD_some]
  rw [ha, hb]
  rfl

/-- An identically zero row of a non-empty matrix is not all ones. -/
theorem rowAllOnes_false_of_allZero {m : Mat} {k : ℕ} (hne : m ≠ [])
    (h : rowAllZero m k = true) : rowAllOnes m k = false := by
  match m, hne with
  | c :: m, _ =>
    rw [rowAllZero, List.all_cons, Bool.and_eq_true, decide_eq_true_eq] at h
    rw [rowAllOnes, List.all_cons, h.1]
    rfl

/-- A row of a non-empty matrix cannot be both all ones and all zeros. -/
theorem not_allOnes_allZero {m : Mat} {k : ℕ} (hne : m ≠ [])
    (h1 : rowAllOnes m k = true) (h0 : rowAllZero m k = true) : False := by
  rw [rowAllOnes_false_of_allZero hne h0] at h1
  exact Bool.false_ne_true h1

/-- An all-ones row stays all ones on any selection of the columns. -/
theorem rowAllOnes_sub {m1 m2 : Mat} {k : ℕ} (hsub : ∀ c ∈ m2, c ∈ m1)
    (h : rowAllOnes m1 k = true) : rowAllOnes m2 k = true := by
  rw [rowAllOnes, List.all_eq_true] at h ⊢
  exact fun c hc => h c (hsub c hc)

/-- An identically zero row stays zero on any selection of the columns. -/
theorem rowAllZero_sub {m1 m2 : Mat} {k : ℕ} (hsub : ∀ c ∈ m2, c ∈ m1)
    (h : rowAllZero m1 k = true) : rowAllZero m2 k = true := by
  rw [rowAllZero, List.all_eq_true] at h ⊢
  exact fun c hc => h c (hsub c hc)

/-- Keeping the columns with a one in row `k` makes row `k` all ones. -/
theorem rowAllOnes_filter_true (m : Mat) (k : ℕ) :
    rowAllOnes (m.filter (fun c => c.getD k false = true)) k = true := by
  rw [rowAllOnes, List.all_eq_true]
  intro c hc
  have := (List.mem_filter.mp hc).2
  simpa using this

/-- Keeping the columns with a zero in row `k` makes row `k` identically zero. -/
theorem rowAllZero_filter_false (m : Mat) (k : ℕ) :
    rowAllZero (m.filter (fun c => c.getD k false = false)) k = true := by
  rw [rowAllZero, List.all_eq_true]
  intro c hc
  have := (List.mem_filter.mp hc).2
  simpa using this

/-- The deduplication fold is the identity on a duplicate-free list. -/
theorem dedupFirst_aux_eq :
    ∀ (l acc : List WItem), (acc ++ l).Nodup →
      l.foldl (fun acc d => if acc.contains d then acc else acc ++ [d]) acc = acc ++ l
  | [], acc, _ => by simp
  | d :: l, acc, h => by
    have hdnotin : d ∉ acc := by
      intro hmem
      obtain ⟨_, _, hdisj⟩ := List.nodup_append.mp h
      exact hdisj hmem (List.mem_cons_self d l)
    have hcont : acc.contains d = false := by
      by_cases hc : acc.contains d = true
      · obtain ⟨a, ha, hbeq⟩ := List.contains_iff_exists_mem_beq.mp hc
        rw [beq_iff_eq] at hbeq
        exact absurd (hbeq ▸ ha) hdnotin
      · exact Bool.eq_false_iff.mpr hc
    simp only [List.foldl_cons, hcont, Bool.false_eq_true, if_false]
    have hassoc : (acc ++ [d]) ++ l = acc ++ d :: l := by simp
    rw [dedupFirst_aux_eq l (acc ++ [d]) (by rw [hassoc]; exact h), hassoc]

/-- Deduplication is the identity on a duplicate-free queue. -/
theorem dedupFirst_eq_self {l : List WItem} (h : l.Nodup) : dedupFirst l = l := by
  have := dedupFirst_aux_eq l [] (by simpa)
  simpa [dedupFirst] using this

/-- The lambda used in the engine's cross-item row update is `elimMap`. -/
theorem elimMap_lambda (n j ep : ℕ) :
    (fun it : WItem => if matIsEmpty n it.1 then it
      else (transvect j ep it.1, it.2.1, it.2.2)) = elimMap n j ep := rfl

/-- The cross-item update never touches the bookkeeping part of an item. -/
theorem elimMap_snd (n j ep : ℕ) (it : WItem) : (elimMap n j ep it).2 = it.2 := by
  simp only [elimMap]
  split <;> rfl

/-- The cross-item update preserves the eligible-row list. -/
theorem elimMap_I (n j ep : ℕ) (it : WItem) : (elimMap n j ep it).2.1 = it.2.1 := by
  rw [elimMap_snd]

/-- The cross-item update preserves the excluded row. -/
theorem elimMap_ep (n j ep : ℕ) (it : WItem) : (elimMap n j ep it).2.2 = it.2.2 := by
  rw [elimMap_snd]

/-- The cross-item update is injective (the row operation is an involution,
and it maps empty and non-empty submatrices to themselves respectively). -/
theorem elimMap_injective (n j ep : ℕ) (hne : j ≠ ep) :
    Function.Injective (elimMap n j ep) := by
  intro a b hab
  simp only [elimMap] at hab
  by_cases ha : matIsEmpty n a.1 = true <;> by_cases hb : matIsEmpty n b.1 = true
  · rw [if_pos ha, if_pos hb] at hab
    exact hab
  · rw [if_pos ha, if_neg hb] at hab
    exfalso
    obtain ⟨hn0, hbne⟩ := matIsEmpty_false n b.1 (Bool.eq_false_iff.mpr hb)
    have ha1 : a.1 = transvect j ep b.1 := by rw [hab]
    have hlen : a.1.length = b.1.length := by rw [ha1, transvect_length]
    have hae : a.1 = [] := by
      simp only [matIsEmpty, Bool.or_eq_true, beq_iff_eq] at ha
      rcases ha with h | h
      · exact absurd h hn0
      · exact List.isEmpty_iff.mp h
    rw [hae] at hlen
    exact hbne (List.length_eq_zero.mp hlen.symm)
  · rw [if_neg ha, if_pos hb] at hab
    exfalso
    obtain ⟨hn0, hane⟩ := matIsEmpty_false n a.1 (Bool.eq_false_iff.mpr ha)
    have hb1 : b.1 = transvect j ep a.1 := by rw [← hab]
    have hlen : b.1.length = a.1.length := by rw [hb1, transvect_length]
    have hbe : b.1 = [] := by
      simp only [matIsEmpty, Bool.or_eq_true, beq_iff_eq] at hb
      rcases hb with h | h
      · exact absurd h hn0
      · exact List.isEmpty_iff.mp h
    rw [hbe] at hlen
    exact hane (List.length_eq_zero.mp hlen.symm)
  · rw [if_neg ha, if_neg hb] at hab
    rw [Prod.mk.injEq, Prod.mk.injEq] at hab
    have h3 : a.1 = b.1 := by
      have h4 := congrArg (transvect j ep) hab.1
      rwa [transvect_transvect j ep hne, transvect_transvect j ep hne] at h4
    exact Prod.ext_iff.mpr ⟨h3, Prod.ext_iff.mpr ⟨hab.2.1, hab.2.2⟩⟩

/-- Removing an element that is present strictly shortens the filter. -/
theorem length_filter_ne_lt {p : ℕ} :
    ∀ (l : List ℕ), p ∈ l → (l.filter (fun x => x ≠ p)).length < l.length
  | a :: l, h => by
    by_cases hap : a = p
    · subst hap
      rw [List.filter_cons_of_neg (by simp)]
      exact Nat.lt_succ_of_le (List.length_filter_le _ l)
    · rw [List.filter_cons_of_pos (by simp [hap])]
      have hp : p ∈ l := by
        rcases List.mem_cons.mp h with h' | h'
        · exact absurd h'.symm hap
        · exact h'
      exact Nat.succ_lt_succ (length_filter_ne_lt l hp)

/-- The queue measure is additive. -/
theorem measureQ_append (l1 l2 : List WItem) :
    measureQ (l1 ++ l2) = measureQ l1 + measureQ l2 := by
  simp [measureQ]

/-- The queue measure of a two-item push. -/
theorem measureQ_pair (a b : WItem) :
    measureQ [a, b] = 3 ^ a.2.1.length + 3 ^ b.2.1.length := by
  simp [measureQ]

/-- The queue measure only depends on the bookkeeping parts of the items. -/
theorem measureQ_congr {q1 q2 : List WItem}
    (h : q1.map (fun it => it.2) = q2.map (fun it => it.2)) :
    measureQ q1 = measureQ q2 := by
  have e : ∀ q : List WItem,
      measureQ q = ((q.map (fun it => it.2)).map (fun p => 3 ^ p.1.length)).sum := by
    intro q
    rw [measureQ, List.map_map]
    rfl
  rw [e, e, h]

/-- The engine-queue invariant restricts to the queue below the top item. -/
theorem EngInv_of_concat {n : ℕ} {l : List WItem} {x : WItem}
    (h : EngInv n (l ++ [x])) : EngInv n l := by
  obtain ⟨h1, h2, h3, h4⟩ := h
  have hs : List.Sublist l (l ++ [x]) := List.sublist_append_left l [x]
  exact ⟨List.Nodup.sublist hs h1, List.Pairwise.sublist hs h2,
    List.Pairwise.sublist hs h3, fun it hit => h4 it (List.mem_append_left _ hit)⟩

/-- Subtree protection means no coexisting item's real excluded row can be the
row being eliminated from the current (top) item. -/
theorem eng_ep_ne_j {n j : ℕ} {cur : WItem} {q : List WItem}
    (hprot : List.Pairwise (ProtRel n) (q ++ [cur])) (hcne : cur.1 ≠ [])
    (hj : j ≠ cur.2.2) (hall : rowAllOnes cur.1 j = true) :
    ∀ a ∈ q ++ [cur], a.2.2 < n → a.2.2 ≠ j := by
  intro a ha han haj
  rcases List.mem_append.mp ha with haq | hacur
  · have hpa : ProtRel n a cur :=
      (List.pairwise_append.mp hprot).2.2 a haq cur (List.mem_singleton.mpr rfl)
    rcases hpa han with hcase | hcase
    · exact hj (hcase.trans haj).symm
    · rw [haj] at hcase
      exact not_allOnes_allZero hcne hall hcase
  · rw [List.mem_singleton.mp hacur] at haj
    exact hj haj.symm

/-- One row elimination preserves the whole engine-queue invariant on the
re-pushed queue: the update is injective (no duplicates arise), it does not
touch eligible rows or excluded rows (stair shape survives), protection
survives because protected rows are never the eliminated row, and all-ones
excluded rows survive for the same reason. -/
theorem EngInv_map_step {n j : ℕ} {cur : WItem} {q : List WItem}
    (hinv : EngInv n (q ++ [cur])) (hcne : cur.1 ≠ [])
    (hj : j ≠ cur.2.2) (hall : rowAllOnes cur.1 j = true) :
    EngInv n ((q ++ [cur]).map (elimMap n j cur.2.2)) := by
  obtain ⟨hnd, hstair, hprot, hw3⟩ := hinv
  have hepj : ∀ a ∈ q ++ [cur], a.2.2 < n → a.2.2 ≠ j :=
    eng_ep_ne_j hprot hcne hj hall
  refine ⟨?_, ?_, ?_, ?_⟩
  · exact List.Nodup.map (elimMap_injective n j cur.2.2 hj) hnd
  · rw [List.pairwise_map]
    refine hstair.imp ?_
    intro a b hab
    simp only [StairRel] at hab ⊢
    rw [elimMap_I, elimMap_I]
    exact hab
  · rw [List.pairwise_map]
    refine List.Pairwise.imp_of_mem ?_ hprot
    intro a b ha hb hab hfa
    rw [elimMap_ep] at hfa
    rcases hab hfa with hcase | hcase
    · left
      rw [elimMap_ep, elimMap_ep]
      exact hcase
    · right
      rw [elimMap_ep]
      by_cases hbemp : matIsEmpty n b.1 = true
      · rw [show (elimMap n j cur.2.2 b).1 = b.1 from by
          simp only [elimMap]; rw [if_pos hbemp]]
        exact hcase
      · rw [show (elimMap n j cur.2.2 b).1 = transvect j cur.2.2 b.1 from by
          simp only [elimMap]; rw [if_neg hbemp]]
        rw [rowAllZero_congr (matRow_transvect_ne j cur.2.2 a.2.2 (hepj a ha hfa) b.1)]
        exact hcase
  · intro it' hit'
    obtain ⟨it, hit, rfl⟩ := List.mem_map.mp hit'
    intro hlt
    rw [elimMap_ep] at hlt
    rw [show (elimMap n j cur.2.2 it).2.2 = it.2.2 from elimMap_ep n j cur.2.2 it]
    by_cases hemp : matIsEmpty n it.1 = true
    · rw [show (elimMap n j cur.2.2 it).1 = it.1 from by
        simp only [elimMap]; rw [if_pos hemp]]
      exact hw3 it hit hlt
    · rw [show (elimMap n j cur.2.2 it).1 = transvect j cur.2.2 it.1 from by
        simp only [elimMap]; rw [if_neg hemp]]
      rw [rowAllOnes_congr (matRow_transvect_ne j cur.2.2 it.2.2 (hepj it hit hlt) it.1)]
      exact hw3 it hit hlt

/-- The re-check loop terminates within its fuel bound. -/
theorem recheck_ne_none :
    ∀ (gas ep : ℕ) (target : List Bool) (index : ℕ) (swtch : Bool) (sc : Mat)
      (ang : List String) (acc : List Instruction),
      2 * sc.length + 1 - index + (if swtch then 0 else 1) < gas →
      recheck ep target gas index swtch sc ang acc ≠ none := by
  intro gas
  induction gas with
  | zero =>
    intro ep target index swtch sc ang acc hf
    exact absurd hf (Nat.not_lt_zero _)
  | succ gas ih =>
    intro ep target index swtch sc ang acc hf h
    simp only [recheck] at h
    split at h
    case isTrue hlt =>
      split at h
      · split at h
        · simp at h
        · rename_i gate hget
          split at h
          · simp at h
          · rename_i g hgate
            split at h
            · simp at h
            · split at h
              case isTrue h0 =>
                refine ih _ _ _ _ _ _ _ ?_ h
                rw [if_pos rfl, List.length_eraseIdx, if_pos hlt]
                split at hf <;> omega
              case isFalse h0 =>
                split at h
                case isTrue hsw =>
                  refine ih _ _ _ _ _ _ _ ?_ h
                  rw [if_pos hsw, List.length_eraseIdx, if_pos hlt]
                  rw [if_pos hsw] at hf
                  omega
                case isFalse hsw =>
                  refine ih _ _ _ _ _ _ _ ?_ h
                  rw [if_pos rfl, List.length_eraseIdx, if_pos hlt]
                  rw [if_neg hsw] at hf
                  omega
      · split at h
        case isTrue hsw =>
          refine ih _ _ _ _ _ _ _ ?_ h
          rw [if_pos hsw]
          rw [if_pos hsw] at hf
          omega
        case isFalse hsw =>
          refine ih _ _ _ _ _ _ _ ?_ h
          rw [if_pos rfl]
          rw [if_neg hsw] at hf
          omega
    case isFalse =>
      simp at h

/-- The re-check loop never grows the residual matrix. -/
theorem recheck_scpy_le :
    ∀ (gas ep : ℕ) (target : List Bool) (index : ℕ) (swtch : Bool) (sc : Mat)
      (ang : List String) (acc : List Instruction)
      (out : Mat × List String × List Instruction),
      recheck ep target gas index swtch sc ang acc = some (.ok out) →
      out.1.length ≤ sc.length := by
  intro gas
  induction gas with
  | zero =>
    intro ep target index swtch sc ang acc out h
    simp [recheck] at h
  | succ gas ih =>
    intro ep target index swtch sc ang acc out h
    simp only [recheck] at h
    have herase : (sc.eraseIdx index).length ≤ sc.length := by
      rw [List.length_eraseIdx]
      split <;> omega
    split at h
    case isFalse =>
      rw [Option.some.injEq, Except.ok.injEq] at h
      rw [← h]
    case isTrue hlt =>
      split at h
      · split at h
        · simp at h
        · split at h
          · simp at h
          · split at h
            · rw [Option.some.injEq, Except.ok.injEq] at h
              rw [← h]
              exact herase
            · split at h
              · exact le_trans (ih _ _ _ _ _ _ _ _ h) herase
              · split at h
                · exact le_trans (ih _ _ _ _ _ _ _ _ h) herase
                · exact le_trans (ih _ _ _ _ _ _ _ _ h) herase
      · split at h
        · exact ih _ _ _ _ _ _ _ _ h
        · exact ih _ _ _ _ _ _ _ _ h

/-- One elimination pass terminates within the fuel handed to its re-checks. -/
theorem elimFor_isSome :
    ∀ (js : List ℕ) (n fuel : ℕ) (cond : Bool) (cur : WItem) (st : EngSt),
      2 * st.s_cpy.length + 2 ≤ fuel →
      (elimFor n fuel js cond cur st).isSome = true := by
  intro js
  induction js with
  | nil =>
    intro n fuel cond cur st _
    simp [elimFor]
  | cons j js ih =>
    intro n fuel cond cur st hfs
    simp only [elimFor]
    split
    · split
      · simp
      · rename_i state' hstate
        have hrs : recheck cur.2.2 (state'.getD cur.2.2 []) fuel 0 true st.s_cpy
            st.rust_angles [] ≠ none := by
          apply recheck_ne_none
          rw [if_pos rfl]
          omega
        split
        · rename_i hnone
          exact absurd hnone hrs
        · simp
        · rename_i sc' ang' emitted hrecheck
          split
          · simp
          · rename_i cur1 hlast
            apply ih
            have hsc : sc'.length ≤ st.s_cpy.length :=
              recheck_scpy_le _ _ _ _ _ _ _ _ _ hrecheck
            show 2 * sc'.length + 2 ≤ fuel
            omega
    · exact ih n fuel cond cur st hfs

/-- A pass over row indices none of which is eliminable does nothing. -/
theorem elimFor_no_trigger :
    ∀ (js : List ℕ) (n fuel : ℕ) (cond : Bool) (cur : WItem) (st : EngSt),
      (∀ j ∈ js, ¬(j ≠ cur.2.2 ∧ rowAllOnes cur.1 j = true)) →
      elimFor n fuel js cond cur st = some (.ok (cond, cur, st)) := by
  intro js
  induction js with
  | nil =>
    intro n fuel cond cur st _
    simp [elimFor]
  | cons j js ih =>
    intro n fuel cond cur st hno
    simp only [elimFor]
    rw [if_neg (hno j (List.mem_cons_self j js))]
    exact ih n fuel cond cur st (fun k hk => hno k (List.mem_cons_of_mem j hk))

/-- The heart of the termination argument: one elimination pass over a
duplicate-free index list, entered with the engine-queue invariant and a real
excluded row on a non-empty current item, (i) preserves the invariant,
(ii) pops back exactly the re-pushed current item — duplicate-freeness makes
the deduplication the identity, so the bookkeeping part of the current item
and of every queued item survives unchanged, (iii) only changes rows listed
in the pass, (iv) leaves every passed row other than the excluded one not
all ones (an eliminated all-ones row is zeroed against the all-ones excluded
row and never touched again), and (v) never grows the residual matrix. -/
theorem elimFor_pass :
    ∀ (js : List ℕ) (n fuel : ℕ) (cond : Bool) (cur : WItem) (st : EngSt)
      (cond' : Bool) (cur' : WItem) (st' : EngSt),
      elimFor n fuel js cond cur st = some (.ok (cond', cur', st')) →
      EngInv n (st.q ++ [cur]) → cur.2.2 < n → cur.1 ≠ [] → js.Nodup →
      EngInv n (st'.q ++ [cur']) ∧ cur'.2 = cur.2 ∧ cur'.1.length = cur.1.length ∧
        (∀ k, k ∉ js → matRow cur'.1 k = matRow cur.1 k) ∧
        (∀ j ∈ js, j ≠ cur.2.2 → rowAllOnes cur'.1 j = false) ∧
        st'.s_cpy.length ≤ st.s_cpy.length ∧
        st'.q.map (fun it => it.2) = st.q.map (fun it => it.2) := by
  intro js
  induction js with
  | nil =>
    intro n fuel cond cur st cond' cur' st' h hinv hep hcne hnd
    simp only [elimFor, Option.some.injEq, Except.ok.injEq, Prod.mk.injEq] at h
    obtain ⟨h1, h2, h3⟩ := h
    subst h2
    subst h3
    exact ⟨hinv, rfl, rfl, fun k _ => rfl,
      fun j hj => absurd hj (List.not_mem_nil j), le_refl _, rfl⟩
  | cons j js ih =>
    intro n fuel cond cur st cond' cur' st' h hinv hep hcne hnd
    have hndjs : js.Nodup := (List.nodup_cons.mp hnd).2
    have hjnotmem : j ∉ js := (List.nodup_cons.mp hnd).1
    simp only [elimFor] at h
    split at h
    case isFalse hg =>
      obtain ⟨H1, H2, H3, H4, H5, H6, H7⟩ := ih _ _ _ _ _ _ _ _ h hinv hep hcne hndjs
      refine ⟨H1, H2, H3, ?_, ?_, H6, H7⟩
      · intro k hk
        exact H4 k (fun hmem => hk (List.mem_cons_of_mem j hmem))
      · intro jj hjj hjne
        rcases List.mem_cons.mp hjj with rfl | hmem
        · have hfalse : rowAllOnes cur.1 jj = false := by
            cases hcase : rowAllOnes cur.1 jj
            · rfl
            · exact absurd ⟨hjne, hcase⟩ hg
          rw [rowAllOnes_congr (H4 jj hjnotmem)]
          exact hfalse
        · exact H5 jj hmem hjne
    case isTrue hg =>
      split at h
      · simp at h
      · rename_i state' hstate
        split at h
        · simp at h
        · simp at h
        · rename_i sc' ang' emitted hrecheck
          split at h
          · simp at h
          · rename_i cur1 hlast
            rw [elimMap_lambda n j cur.2.2, dedupFirst_eq_self hinv.1,
              List.map_append, List.map_singleton, List.getLast?_concat,
              Option.some.injEq] at hlast
            rw [elimMap_lambda n j cur.2.2, dedupFirst_eq_self hinv.1,
              List.map_append, List.map_singleton, List.dropLast_concat] at h
            subst hlast
            have hnotemp : ¬(matIsEmpty n cur.1 = true) := by
              simp only [matIsEmpty, Bool.or_eq_true, beq_iff_eq]
              intro hcon
              rcases hcon with hx | hx
              · omega
              · exact hcne (List.isEmpty_iff.mp hx)
            have hcur1_eq : elimMap n j cur.2.2 cur
                = (transvect j cur.2.2 cur.1, cur.2.1, cur.2.2) := by
              simp only [elimMap]
              rw [if_neg hnotemp]
            have htvne : transvect j cur.2.2 cur.1 ≠ [] := by
              intro hcon
              have hlen := congrArg List.length hcon
              rw [transvect_length] at hlen
              exact hcne (List.length_eq_zero.mp (by simpa using hlen))
            have hinv1 : EngInv n (st.q.map (elimMap n j cur.2.2)
                ++ [elimMap n j cur.2.2 cur]) := by
              have := EngInv_map_step hinv hcne hg.1 hg.2
              rwa [List.map_append, List.map_singleton] at this
            have hep1 : (elimMap n j cur.2.2 cur).2.2 < n := by
              rw [elimMap_ep]
              exact hep
            have hcne1 : (elimMap n j cur.2.2 cur).1 ≠ [] := by
              rw [hcur1_eq]
              exact htvne
            obtain ⟨H1, H2, H3, H4, H5, H6, H7⟩ :=
              ih _ _ _ _ _ _ _ _ h hinv1 hep1 hcne1 hndjs
            refine ⟨H1, ?_, ?_, ?_, ?_, ?_, ?_⟩
            · exact H2.trans (elimMap_snd n j cur.2.2 cur)
            · rw [H3, hcur1_eq]
              exact transvect_length j cur.2.2 cur.1
            · intro k hk
              have hkj : k ≠ j := fun hc => hk (by rw [hc]; exact List.mem_cons_self j js)
              have hkjs : k ∉ js := fun hc => hk (List.mem_cons_of_mem j hc)
              rw [H4 k hkjs, hcur1_eq]
              exact matRow_transvect_ne j cur.2.2 k hkj cur.1
            · intro jj hjj hjne
              rcases List.mem_cons.mp hjj with heqj | hmem
              · subst heqj
                have hw3cur : rowAllOnes cur.1 cur.2.2 = true :=
                  hinv.2.2.2 cur (by simp) hep
                have hz : rowAllZero (transvect jj cur.2.2 cur.1) jj = true :=
                  rowAllZero_transvect_self jj cur.2.2 cur.1 hg.2 hw3cur
                have hone : rowAllOnes (elimMap n jj cur.2.2 cur).1 jj = false := by
                  rw [hcur1_eq]
                  exact rowAllOnes_false_of_allZero htvne hz
                rw [rowAllOnes_congr (H4 jj hjnotmem)]
                exact hone
              · refine H5 jj hmem ?_
                rw [elimMap_ep]
                exact hjne
            · have hsc : sc'.length ≤ st.s_cpy.length :=
                recheck_scpy_le _ _ _ _ _ _ _ _ _ hrecheck
              have hsc2 : st'.s_cpy.length ≤ sc'.length := H6
              omega
            · refine H7.trans ?_
              rw [List.map_map]
              refine List.map_congr_left ?_
              intro it _
              simp only [Function.comp]
              exact elimMap_snd n j cur.2.2 it

/-- The row-elimination fixpoint preserves the engine-queue invariant, the
bookkeeping of the current item, its non-emptiness, the residual bound and
the bookkeeping of every queued item. -/
theorem elimWhile_post :
    ∀ (fuel n : ℕ) (cur : WItem) (st : EngSt) (cur2 : WItem) (st2 : EngSt),
      elimWhile n fuel cur st = some (.ok (cur2, st2)) →
      EngInv n (st.q ++ [cur]) → cur.2.2 < n → cur.1 ≠ [] →
      EngInv n (st2.q ++ [cur2]) ∧ cur2.2 = cur.2 ∧ cur2.1 ≠ [] ∧
        st2.s_cpy.length ≤ st.s_cpy.length ∧
        st2.q.map (fun it => it.2) = st.q.map (fun it => it.2) := by
  intro fuel
  induction fuel with
  | zero =>
    intro n cur st cur2 st2 h
    simp [elimWhile] at h
  | succ fuel ih =>
    intro n cur st cur2 st2 h hinv hep hcne
    simp only [elimWhile] at h
    split at h
    · simp at h
    · simp at h
    · rename_i cur' st' heq
      rw [Option.some.injEq, Except.ok.injEq, Prod.mk.injEq] at h
      obtain ⟨P1, P2, P3, P4, P5, P6, P7⟩ :=
        elimFor_pass (List.range n) n (fuel + 1) false cur st false cur' st' heq hinv hep
          hcne (List.nodup_range n)
      have hcne' : cur'.1 ≠ [] := by
        intro hc
        rw [hc] at P3
        exact hcne (List.length_eq_zero.mp (by simpa using P3.symm))
      rw [← h.1, ← h.2]
      exact ⟨P1, P2, hcne', P6, P7⟩
    · rename_i cur' st' heq
      obtain ⟨P1, P2, P3, P4, P5, P6, P7⟩ :=
        elimFor_pass (List.range n) n (fuel + 1) false cur st true cur' st' heq hinv hep
          hcne (List.nodup_range n)
      have hcne' : cur'.1 ≠ [] := by
        intro hc
        rw [hc] at P3
        exact hcne (List.length_eq_zero.mp (by simpa using P3.symm))
      have hep' : cur'.2.2 < n := by
        rw [show cur'.2.2 = cur.2.2 from congrArg Prod.snd P2]
        exact hep
      obtain ⟨Q1, Q2, Q3, Q4, Q5⟩ := ih n cur' st' cur2 st2 h P1 hep' hcne'
      exact ⟨Q1, Q2.trans P2, Q3, le_trans Q4 P6, Q5.trans P7⟩

/-- The row-elimination fixpoint terminates: the first pass zeroes every row
it eliminates against the all-ones excluded row and leaves the rest
untouched, so a second pass finds nothing and exits. -/
theorem elimWhile_isSome :
    ∀ (fuel n : ℕ) (cur : WItem) (st : EngSt),
      EngInv n (st.q ++ [cur]) → cur.2.2 < n → cur.1 ≠ [] →
      2 * st.s_cpy.length + 2 ≤ fuel → 2 ≤ fuel →
      (elimWhile n fuel cur st).isSome = true := by
  intro fuel n cur st hinv hep hcne hfs hf2
  obtain ⟨f, rfl⟩ : ∃ f, fuel = f + 1 := ⟨fuel - 1, by omega⟩
  simp only [elimWhile]
  have hfor : (elimFor n (f + 1) (List.range n) false cur st).isSome = true :=
    elimFor_isSome (List.range n) n (f + 1) false cur st hfs
  split
  · rename_i hnone
    rw [hnone] at hfor
    simp at hfor
  · simp
  · simp
  · rename_i cur' st' hr
    obtain ⟨P1, P2, P3, P4, P5, P6, P7⟩ :=
      elimFor_pass (List.range n) n (f + 1) false cur st true cur' st' hr hinv hep hcne
        (List.nodup_range n)
    obtain ⟨f1, rfl⟩ : ∃ f1, f = f1 + 1 := ⟨f - 1, by omega⟩
    simp only [elimWhile]
    have hno : ∀ k ∈ List.range n, ¬(k ≠ cur'.2.2 ∧ rowAllOnes cur'.1 k = true) := by
      intro k hk hcon
      have hkep : k ≠ cur.2.2 := by
        rw [show cur.2.2 = cur'.2.2 from (congrArg Prod.snd P2).symm]
        exact hcon.1
      have hfalse := P5 k hk hkep
      rw [hfalse] at hcon
      exact Bool.false_ne_true hcon.2
    rw [elimFor_no_trigger (List.range n) n (f1 + 1) false cur' st' hno]
    simp

/-- Pushing the two bipartition children restores the engine-queue invariant:
their eligible-row sets are strictly smaller than every queued item's (stair),
they are distinct from each other and from everything queued, the pivot filter
makes the new excluded rows all ones (respectively all zeros in the sibling),
and protection is inherited column-subset-wise. -/
theorem EngInv_children {n pj : ℕ} {q : List WItem} {cur2 item1 item0 : WItem}
    (hinv : EngInv n (q ++ [cur2])) (hcne : cur2.1 ≠ [])
    (hpj : pj ∈ cur2.2.1) (hpjn : pj < n)
    (hit1 : item1 = if cur2.2.2 = n
      then (cur2.1.filter (fun c => c.getD pj false = true),
            cur2.2.1.filter (fun x => x ≠ pj), pj)
      else (cur2.1.filter (fun c => c.getD pj false = true),
            cur2.2.1.filter (fun x => x ≠ pj), cur2.2.2))
    (hit0 : item0 = (cur2.1.filter (fun c => c.getD pj false = false),
            cur2.2.1.filter (fun x => x ≠ pj), cur2.2.2)) :
    EngInv n (q ++ [item1, item0]) := by
  obtain ⟨hnd, hstair, hprot, hw3⟩ := hinv
  have hI1 : item1.2.1 = cur2.2.1.filter (fun x => x ≠ pj) := by
    rw [hit1]
    split <;> rfl
  have hI0 : item0.2.1 = cur2.2.1.filter (fun x => x ≠ pj) := by rw [hit0]
  have hflt : (cur2.2.1.filter (fun x => x ≠ pj)).length < cur2.2.1.length :=
    length_filter_ne_lt cur2.2.1 hpj
  have hq_stair : ∀ x ∈ q, cur2.2.1.length ≤ x.2.1.length := fun x hx =>
    (List.pairwise_append.mp hstair).2.2 x hx cur2 (List.mem_singleton.mpr rfl)
  have hq_prot : ∀ x ∈ q, ProtRel n x cur2 := fun x hx =>
    (List.pairwise_append.mp hprot).2.2 x hx cur2 (List.mem_singleton.mpr rfl)
  have hsub1 : ∀ c ∈ item1.1, c ∈ cur2.1 := by
    rw [hit1]
    split <;> exact fun c hc => List.mem_of_mem_filter hc
  have hsub0 : ∀ c ∈ item0.1, c ∈ cur2.1 := by
    rw [hit0]
    exact fun c hc => List.mem_of_mem_filter hc
  have hw3cur : cur2.2.2 < n → rowAllOnes cur2.1 cur2.2.2 = true :=
    hw3 cur2 (List.mem_append_right _ (List.mem_singleton.mpr rfl))
  have hne10 : item1 ≠ item0 := by
    intro hcon
    by_cases hep : cur2.2.2 = n
    · rw [hit1, if_pos hep, hit0] at hcon
      have hthird := congrArg (fun p : WItem => p.2.2) hcon
      simp only at hthird
      omega
    · rw [hit1, if_neg hep, hit0] at hcon
      have hmats := congrArg Prod.fst hcon
      simp only at hmats
      obtain ⟨c, rest, hm⟩ : ∃ c rest, cur2.1 = c :: rest := by
        cases hx : cur2.1 with
        | nil => exact absurd hx hcne
        | cons c r => exact ⟨c, r, rfl⟩
      have hcmem : c ∈ cur2.1 := by
        rw [hm]
        exact List.mem_cons_self c rest
      by_cases hcv : c.getD pj false = true
      · have hmem1 : c ∈ cur2.1.filter (fun c => c.getD pj false = true) :=
          List.mem_filter.mpr ⟨hcmem, by simp only [decide_eq_true_eq]; exact hcv⟩
        rw [hmats] at hmem1
        have hvf := (List.mem_filter.mp hmem1).2
        simp only [decide_eq_true_eq] at hvf
        rw [hcv] at hvf
        simp at hvf
      · have hcv' : c.getD pj false = false := by
          cases hx : c.getD pj false
          · rfl
          · exact absurd hx hcv
        have hmem0 : c ∈ cur2.1.filter (fun c => c.getD pj false = false) :=
          List.mem_filter.mpr ⟨hcmem, by simp only [decide_eq_true_eq]; exact hcv'⟩
        rw [← hmats] at hmem0
        have hvf := (List.mem_filter.mp hmem0).2
        simp only [decide_eq_true_eq] at hvf
        rw [hcv'] at hvf
        simp at hvf
  refine ⟨?_, ?_, ?_, ?_⟩
  · obtain ⟨hqnd, _, _⟩ := List.nodup_append.mp hnd
    rw [List.nodup_append]
    refine ⟨hqnd, ?_, ?_⟩
    · simp [List.nodup_cons, hne10]
    · intro x hx hmem
      have hle := hq_stair x hx
      have hxlen : x.2.1.length = (cur2.2.1.filter (fun y => y ≠ pj)).length := by
        rcases List.mem_cons.mp hmem with hx1 | hx1
        · rw [hx1, hI1]
        · rw [List.mem_singleton.mp hx1, hI0]
      omega
  · rw [List.pairwise_append]
    refine ⟨(List.pairwise_append.mp hstair).1, ?_, ?_⟩
    · refine List.pairwise_pair.mpr ?_
      simp only [StairRel]
      rw [hI1, hI0]
    · intro a ha b hb
      simp only [StairRel]
      have hb1 : b.2.1.length = (cur2.2.1.filter (fun x => x ≠ pj)).length := by
        rcases List.mem_cons.mp hb with hx1 | hx1
        · rw [hx1, hI1]
        · rw [List.mem_singleton.mp hx1, hI0]
      have := hq_stair a ha
      omega
  · rw [List.pairwise_append]
    refine ⟨(List.pairwise_append.mp hprot).1, ?_, ?_⟩
    · refine List.pairwise_pair.mpr ?_
      intro h1n
      by_cases hep : cur2.2.2 = n
      · right
        have h12 : item1.2.2 = pj := by rw [hit1, if_pos hep]
        rw [h12, hit0]
        exact rowAllZero_filter_false cur2.1 pj
      · left
        rw [hit1, if_neg hep, hit0]
    · intro a ha b hb han
      rcases hq_prot a ha han with hsame | hzero
      · have hepn : cur2.2.2 ≠ n := by omega
        left
        rcases List.mem_cons.mp hb with hx1 | hx1
        · rw [hx1, hit1, if_neg hepn]
          exact hsame
        · rw [List.mem_singleton.mp hx1, hit0]
          exact hsame
      · right
        rcases List.mem_cons.mp hb with hx1 | hx1
        · rw [hx1]
          exact rowAllZero_sub hsub1 hzero
        · rw [List.mem_singleton.mp hx1]
          exact rowAllZero_sub hsub0 hzero
  · intro it hit
    rcases List.mem_append.mp hit with hx | hx
    · exact hw3 it (List.mem_append_left _ hx)
    · rcases List.mem_cons.mp hx with hx1 | hx1
      · rw [hx1]
        intro h1n
        by_cases hep : cur2.2.2 = n
        · have h12 : item1.2.2 = pj := by rw [hit1, if_pos hep]
          have h11 : item1.1 = cur2.1.filter (fun c => c.getD pj false = true) := by
            rw [hit1, if_pos hep]
          rw [h12, h11]
          exact rowAllOnes_filter_true cur2.1 pj
        · have h12 : item1.2.2 = cur2.2.2 := by rw [hit1, if_neg hep]
          rw [h12] at h1n ⊢
          exact rowAllOnes_sub hsub1 (hw3cur h1n)
      · rw [List.mem_singleton.mp hx1]
        intro h1n
        have h02 : item0.2.2 = cur2.2.2 := by rw [hit0]
        rw [h02] at h1n ⊢
        exact rowAllOnes_sub hsub0 (hw3cur h1n)

/-- The work-queue loop terminates within the fuel bound `Σ 3^|I| + 2M + 4`:
each iteration either discards the popped item, or replaces it by two children
whose combined weight `2·3^|I'|` is strictly below its weight `3^|I|`; the
fixpoint inside each iteration is covered by `elimWhile_isSome` and the
invariant is maintained by `elimWhile_post` and `EngInv_children`. -/
theorem engineLoop_ne_none :
    ∀ (fuel n M : ℕ) (st : EngSt),
      QInv n st → EngInv n st.q → st.s_cpy.length ≤ M →
      measureQ st.q + 2 * M + 4 ≤ fuel →
      engineLoop n fuel st ≠ none := by
  intro fuel
  induction fuel with
  | zero =>
    intro n M st _ _ _ hf
    exact absurd hf (by omega)
  | succ fuel ih =>
    intro n M st hq hinv hsl hf h
    rw [engineLoop] at h
    split at h
    · simp at h
    · rename_i cur hlast
      simp only at h
      have hmem := List.mem_of_getLast?_eq_some hlast
      have hcur : ItemInv n cur := hq cur hmem
      have hq0 : QInv n { st with q := st.q.dropLast } := fun it hit =>
        hq it (List.dropLast_subset _ hit)
      have hdecomp : st.q.dropLast ++ [cur] = st.q :=
        List.dropLast_append_getLast? cur hlast
      have hinv0 : EngInv n (st.q.dropLast ++ [cur]) := by
        rw [hdecomp]
        exact hinv
      have hpow : 0 < 3 ^ cur.2.1.length := Nat.pow_pos (by omega)
      have hmq : measureQ st.q = measureQ st.q.dropLast + 3 ^ cur.2.1.length := by
        conv_lhs => rw [← hdecomp]
        rw [measureQ_append]
        simp [measureQ]
      split at h
      · refine ih n M _ hq0 (EngInv_of_concat hinv0) hsl ?_ h
        show measureQ st.q.dropLast + 2 * M + 4 ≤ fuel
        omega
      case isFalse hnemp =>
        obtain ⟨hn0, hcne⟩ := matIsEmpty_false n cur.1 (Bool.eq_false_iff.mpr hnemp)
        split at h
        · rename_i hfix
          split at hfix
          case isTrue hlt =>
            have hws := elimWhile_isSome (fuel + 1) n cur { st with q := st.q.dropLast }
              hinv0 hlt hcne
              (by show 2 * st.s_cpy.length + 2 ≤ fuel + 1; omega) (by omega)
            rw [hfix] at hws
            simp at hws
          case isFalse => simp at hfix
        · simp at h
        · rename_i cur2 st2 hfix
          have hpost : EngInv n (st2.q ++ [cur2]) ∧ cur2.2 = cur.2 ∧ cur2.1 ≠ [] ∧
              st2.s_cpy.length ≤ st.s_cpy.length ∧
              st2.q.map (fun it => it.2) = st.q.dropLast.map (fun it => it.2) := by
            split at hfix
            case isTrue hlt =>
              exact elimWhile_post (fuel + 1) n cur _ cur2 st2 hfix hinv0 hlt hcne
            case isFalse =>
              rw [Option.some.injEq, Except.ok.injEq, Prod.mk.injEq] at hfix
              obtain ⟨h1, h2⟩ := hfix
              subst h1
              subst h2
              exact ⟨hinv0, rfl, hcne, le_refl _, rfl⟩
          have hq2 : QInv n st2 := by
            split at hfix
            · exact (elimWhile_inv _ _ _ _ _ hfix hq0 hcur).1
            · rw [Option.some.injEq, Except.ok.injEq, Prod.mk.injEq] at hfix
              rw [← hfix.2]
              exact hq0
          have hcur2 : ItemInv n cur2 := by
            have he1 : cur2.2.1 = cur.2.1 := congrArg Prod.fst hpost.2.1
            have he2 : cur2.2.2 = cur.2.2 := congrArg Prod.snd hpost.2.1
            constructor
            · intro i hi
              exact hcur.1 i (he1 ▸ hi)
            · rw [he1, he2]
              exact hcur.2
          have hmq2 : measureQ st2.q = measureQ st.q.dropLast :=
            measureQ_congr hpost.2.2.2.2
          split at h
          · refine ih n M st2 hq2 (EngInv_of_concat hpost.1)
              (le_trans hpost.2.2.2.1 hsl) ?_ h
            omega
          case isFalse hIne =>
            have hI2 : cur2.2.1 ≠ [] := fun hc => hIne (by rw [hc]; rfl)
            split at h
            · simp at h
            · rename_i pj hpiv
              split at h
              · simp at h
              · rename_i hd tl hmat
                have hpjI : pj ∈ cur2.2.1 := pivotSelect_mem n cur2.1 cur2.2.1 pj hI2 hpiv
                have hpjn : pj < n := hcur2.1 pj hpjI
                have hlenI : cur2.2.1.length = cur.2.1.length := by
                  rw [congrArg Prod.fst hpost.2.1]
                have hfltI := length_filter_ne_lt cur2.2.1 hpjI
                have h3pos : 0 < 3 ^ (cur2.2.1.filter (fun x => x ≠ pj)).length :=
                  Nat.pow_pos (by omega)
                have h2pow : 2 * 3 ^ (cur2.2.1.filter (fun x => x ≠ pj)).length
                    < 3 ^ cur.2.1.length := by
                  have hstep : (cur2.2.1.filter (fun x => x ≠ pj)).length + 1
                      ≤ cur.2.1.length := by omega
                  calc 2 * 3 ^ (cur2.2.1.filter (fun x => x ≠ pj)).length
                      < 3 * 3 ^ (cur2.2.1.filter (fun x => x ≠ pj)).length := by omega
                    _ = 3 ^ ((cur2.2.1.filter (fun x => x ≠ pj)).length + 1) := by
                        rw [Nat.pow_succ, Nat.mul_comm]
                    _ ≤ 3 ^ cur.2.1.length := Nat.pow_le_pow_right (by omega) hstep
                refine absurd h (ih n M _ ?_ ?_ (le_trans hpost.2.2.2.1 hsl) ?_)
                · intro it hit
                  rcases List.mem_append.mp hit with hx | hx
                  · exact hq2 it hx
                  · have hni : ∀ i ∈ cur2.2.1.filter (fun x => x ≠ pj), i < n := fun i hi =>
                      hcur2.1 i (List.mem_of_mem_filter hi)
                    have hpjni : pj ∉ cur2.2.1.filter (fun x => x ≠ pj) := by
                      intro hc
                      have := List.of_mem_filter hc
                      simp at this
                    have hepni : cur2.2.2 ∉ cur2.2.1.filter (fun x => x ≠ pj) := fun hc =>
                      hcur2.2 (List.mem_of_mem_filter hc)
                    rcases List.mem_cons.mp hx with hx1 | hx1
                    · rw [hx1]
                      split
                      · exact ⟨hni, hpjni⟩
                      · exact ⟨hni, hepni⟩
                    · rw [List.mem_singleton.mp hx1]
                      exact ⟨hni, hepni⟩
                · exact EngInv_children hpost.1 hpost.2.2.1 hpjI hpjn rfl rfl
                · show measureQ (st2.q ++ [_, _]) + 2 * M + 4 ≤ fuel
                  rw [measureQ_append, measureQ_pair]
                  have hit1I : (if cur2.2.2 = n
                      then (cur2.1.filter (fun c => c.getD pj false = true),
                            cur2.2.1.filter (fun x => x ≠ pj), pj)
                      else (cur2.1.filter (fun c => c.getD pj false = true),
                            cur2.2.1.filter (fun x => x ≠ pj), cur2.2.2)).2.1
                      = cur2.2.1.filter (fun x => x ≠ pj) := by
                    split <;> rfl
                  rw [hit1I]
                  rw [show ((cur2.1.filter (fun c => c.getD pj false = false),
                      cur2.2.1.filter (fun x => x ≠ pj), cur2.2.2) : WItem).2.1
                      = cur2.2.1.filter (fun x => x ≠ pj) from rfl]
                  omega

/-- The pre-pass iterator terminates within its fuel bound: each recursive
step either advances the column cursor below the column count or advances the
qubit cursor below the qubit count with the cursor reset. -/
theorem nextInstr_ne_none :
    ∀ (gas : ℕ) (st : PrePass),
      (st.num_qubits - st.qubit_idx) * (st.s_cpy.length + 2)
        + (st.s_cpy.length + 1 - st.index) < gas →
      nextInstr gas st ≠ none := by
  intro gas
  induction gas with
  | zero =>
    intro st hf
    exact absurd hf (Nat.not_lt_zero _)
  | succ gas ih =>
    intro st hf h
    simp only [nextInstr] at h
    split at h
    case isTrue => simp at h
    case isFalse hq1 =>
      split at h
      case isTrue hlt =>
        by_cases hic : List.get st.s_cpy ⟨st.index, hlt⟩ = st.state_cpy.getD st.qubit_idx []
        · rw [if_pos hic] at h
          split at h
          · simp at h
          · split at h <;> (try split at h) <;> simp at h
        · rw [if_neg hic] at h
          refine ih _ ?_ h
          show (st.num_qubits - st.qubit_idx) * (st.s_cpy.length + 2)
            + (st.s_cpy.length + 1 - (st.index + 1)) < gas
          set P := (st.num_qubits - st.qubit_idx) * (st.s_cpy.length + 2) with hP
          omega
      case isFalse hge =>
        refine ih _ ?_ h
        show (st.num_qubits - (st.qubit_idx + 1)) * (st.s_cpy.length + 2)
          + (st.s_cpy.length + 1 - 0) < gas
        have hone : st.num_qubits - st.qubit_idx
            = (st.num_qubits - (st.qubit_idx + 1)) + 1 := by omega
        rw [hone, Nat.succ_mul] at hf
        set P := (st.num_qubits - (st.qubit_idx + 1)) * (st.s_cpy.length + 2) with hP
        omega

/-- One pre-pass step never grows the residual, keeps the qubit count, and
strictly shrinks the residual whenever it yields an instruction. -/
theorem nextInstr_props :
    ∀ (gas : ℕ) (st : PrePass) (x : Option Instruction) (st' : PrePass),
      nextInstr gas st = some (.ok (x, st')) →
      st'.s_cpy.length ≤ st.s_cpy.length ∧ st'.num_qubits = st.num_qubits ∧
        (x.isSome = true → st'.s_cpy.length < st.s_cpy.length) := by
  intro gas
  induction gas with
  | zero =>
    intro st x st' h
    simp [nextInstr] at h
  | succ gas ih =>
    intro st x st' h
    simp only [nextInstr] at h
    split at h
    · rw [Option.some.injEq, Except.ok.injEq, Prod.mk.injEq] at h
      obtain ⟨h1, h2⟩ := h
      subst h2
      refine ⟨le_refl _, rfl, ?_⟩
      rw [← h1]
      simp
    · split at h
      case isTrue hlt =>
        by_cases hic : List.get st.s_cpy ⟨st.index, hlt⟩ = st.state_cpy.getD st.qubit_idx []
        · rw [if_pos hic] at h
          split at h
          · simp at h
          · rename_i angle hget
            have herase : (st.s_cpy.eraseIdx st.index).length < st.s_cpy.length := by
              rw [List.length_eraseIdx, if_pos hlt]
              omega
            split at h <;> (try split at h) <;>
              (rw [Option.some.injEq, Except.ok.injEq, Prod.mk.injEq] at h;
               obtain ⟨h1, h2⟩ := h;
               subst h2;
               exact ⟨le_of_lt herase, rfl, fun _ => herase⟩)
        · rw [if_neg hic] at h
          obtain ⟨ha, hb, hc⟩ := ih _ _ _ h
          exact ⟨ha, hb, hc⟩
      case isFalse hge =>
        obtain ⟨ha, hb, hc⟩ := ih _ _ _ h
        exact ⟨ha, hb, hc⟩

/-- Draining the pre-pass terminates within its fuel bound: every produced
instruction removes a column, so at most `columns` drains happen, each within
the per-step bound. -/
theorem collectInstrs_ne_none :
    ∀ (gas : ℕ) (st : PrePass),
      (st.num_qubits + 1) * (st.s_cpy.length + 2) + st.s_cpy.length < gas →
      collectInstrs gas st ≠ none := by
  intro gas
  induction gas with
  | zero =>
    intro st hf
    exact absurd hf (Nat.not_lt_zero _)
  | succ gas ih =>
    intro st hf h
    rw [collectInstrs] at h
    split at h
    · rename_i hnone
      refine nextInstr_ne_none (gas + 1) st ?_ hnone
      have hb1 : (st.num_qubits - st.qubit_idx) * (st.s_cpy.length + 2)
          ≤ st.num_qubits * (st.s_cpy.length + 2) :=
        Nat.mul_le_mul (Nat.sub_le _ _) (le_refl _)
      have hb2 : (st.num_qubits + 1) * (st.s_cpy.length + 2)
          = st.num_qubits * (st.s_cpy.length + 2) + (st.s_cpy.length + 2) := by
        rw [Nat.succ_mul]
      set A := (st.num_qubits - st.qubit_idx) * (st.s_cpy.length + 2) with hA
      set B := st.num_qubits * (st.s_cpy.length + 2) with hB
      omega
    · simp at h
    · simp at h
    · rename_i i st1 heq
      split at h
      · rename_i hnone2
        obtain ⟨hle, hK, hstrict⟩ := nextInstr_props (gas + 1) st (some i) st1 heq
        refine ih st1 ?_ hnone2
        have hlt : st1.s_cpy.length < st.s_cpy.length := hstrict (by simp)
        rw [hK]
        have hm : (st.num_qubits + 1) * (st1.s_cpy.length + 2)
            ≤ (st.num_qubits + 1) * (st.s_cpy.length + 1) :=
          Nat.mul_le_mul (le_refl _) (by omega)
        have hm2 : (st.num_qubits + 1) * (st.s_cpy.length + 2)
            = (st.num_qubits + 1) * (st.s_cpy.length + 1) + (st.num_qubits + 1) := by
          rw [show st.s_cpy.length + 2 = (st.s_cpy.length + 1) + 1 from rfl, Nat.mul_succ]
        set A := (st.num_qubits + 1) * (st1.s_cpy.length + 2) with hA
        set B := (st.num_qubits + 1) * (st.s_cpy.length + 1) with hB
        set C := (st.num_qubits + 1) * (st.s_cpy.length + 2) with hC
        omega
      · simp at h
      · simp at h

/-- Draining the pre-pass never grows the residual matrix. -/
theorem collectInstrs_scpy_le :
    ∀ (gas : ℕ) (st : PrePass) (ins : List Instruction) (pp : PrePass),
      collectInstrs gas st = some (.ok (ins, pp)) → pp.s_cpy.length ≤ st.s_cpy.length := by
  intro gas
  induction gas with
  | zero =>
    intro st ins pp h
    simp [collectInstrs] at h
  | succ gas ih =>
    intro st ins pp h
    rw [collectInstrs] at h
    split at h
    · simp at h
    · simp at h
    · rename_i st1 heq
      rw [Option.some.injEq, Except.ok.injEq, Prod.mk.injEq] at h
      rw [← h.2]
      exact (nextInstr_props _ _ _ _ heq).1
    · rename_i i st1 heq
      split at h
      · simp at h
      · simp at h
      · rename_i rest stf heq2
        rw [Option.some.injEq, Except.ok.injEq, Prod.mk.injEq] at h
        rw [← h.2]
        exact le_trans (ih _ _ _ heq2) (nextInstr_props _ _ _ _ heq).1

/-- C9: the whole synthesis call is a terminating procedure on every input:
there is a finite fuel (computable from the input sizes) within which the
pre-pass drains, the row-elimination fixpoint reaches a fixed point in at most
two passes, and the work-queue loop exhausts its strictly decreasing
`Σ 3^|eligible rows|` measure, so `synthRun` returns a result (a circuit or a
raised error) rather than running forever. -/
theorem c9_termination :
    ∀ (cnots : List (List Bool)) (angles : List String),
      ∃ (fuel : ℕ) (r : Except Err SynthResult), synthRun fuel cnots angles = some r := by
  intro cnots angles
  obtain ⟨F, hFdef⟩ : ∃ F, F = (cnots.length + 1) * ((colsOf cnots).length + 2)
      + 3 * (colsOf cnots).length + 3 ^ cnots.length + 6 := ⟨_, rfl⟩
  refine ⟨F, ?_⟩
  have h3pos : 0 < 3 ^ cnots.length := Nat.pow_pos (by omega)
  cases hres : synthRun F cnots angles with
  | some r => exact ⟨r, rfl⟩
  | none =>
    exfalso
    simp only [synthRun] at hres
    split at hres
    · rename_i hcoll
      refine collectInstrs_ne_none F _ ?_ hcoll
      show (cnots.length + 1) * ((colsOf cnots).length + 2) + (colsOf cnots).length < F
      rw [hFdef]
      set P := (cnots.length + 1) * ((colsOf cnots).length + 2) with hP
      omega
    · simp at hres
    · rename_i ins pp hcoll
      split at hres
      · rename_i heng
        refine engineLoop_ne_none F cnots.length ((colsOf cnots).length) _ ?_ ?_ ?_ ?_ heng
        · intro it hit
          rw [List.mem_singleton.mp hit]
          constructor
          · intro i hi
            simp only [initialWorkItem] at hi
            exact List.mem_range.mp hi
          · simp [initialWorkItem]
        · refine ⟨List.nodup_singleton _, List.pairwise_singleton _ _,
            List.pairwise_singleton _ _, ?_⟩
          intro it hit hlt
          rw [List.mem_singleton.mp hit] at hlt
          simp only [initialWorkItem] at hlt
          omega
        · exact collectInstrs_scpy_le F _ ins pp hcoll
        · show measureQ [initialWorkItem cnots] + 2 * (colsOf cnots).length + 4 ≤ F
          have hms : measureQ [initialWorkItem cnots] = 3 ^ cnots.length := by
            simp [measureQ, initialWorkItem]
          rw [hms, hFdef]
          set P := (cnots.length + 1) * ((colsOf cnots).length + 2) with hP
          omega
      · simp at hres
      · simp at hres
